import Mathlib

/-!
Verification model of the gundog retrieval engine: the indexer
(`src/gundog/_indexer.py`), the query engine (`src/gundog/_query.py`) and the
index manager (`src/gundog/_daemon.py`).  Collaborator modules whose Python
sources are not part of the analysed tree (vector store, chunker, BM25 index,
similarity graph) are modelled from the specification and marked as such in
their doc comments.  Python floats are modelled as exact rationals.
-/

namespace Gundog

/-- Modelled from the spec (§3, ChunkId; `_chunker.py` is not in the analysed
tree): the canonical chunk identifier is either a whole-file path or
`path#chunk_i`, and the spec requires the mapping to be losslessly parseable
both ways, so identifiers are modelled as the pair of parent path and
optional chunk index. -/
structure ChunkId where
  path : String
  chunk : Option Nat
deriving DecidableEq, Repr

/-- Modelled from the spec: `make_chunk_id(parent, i)` forms the chunk id of
chunk `i` of `parent`. -/
def makeChunkId (parent : String) (i : Nat) : ChunkId := ⟨parent, some i⟩

/-- Modelled from the spec: `parse_chunk_id` recovers the parent path and the
optional chunk index from an id. -/
def parseChunkId (id : ChunkId) : String × Option Nat := (id.path, id.chunk)

/-- Rendering of a ChunkId back to its canonical string form (ids are plain
strings in the Python source; only the BM25 document builder needs the
string form).  Modelled from the spec. -/
def idString (id : ChunkId) : String :=
  match id.chunk with
  | none => id.path
  | some i => id.path ++ "#chunk_" ++ toString i

/-- Metadata dictionary attached to a store entry.  Python uses a string-keyed
dict; the recognised keys (spec §3) are modelled as optional fields, `none`
standing for an absent key.  `dispChunkIndex` and `dispParentFile` model the
`_chunk_index` and `_parent_file` display keys written by chunk
deduplication in the query engine. -/
structure Meta where
  ftype : Option String := none
  mtime : Option ℚ := none
  contentHash : Option String := none
  parentFile : Option String := none
  chunkIndex : Option Nat := none
  startLine : Option Nat := none
  endLine : Option Nat := none
  dispChunkIndex : Option Nat := none
  dispParentFile : Option String := none
deriving DecidableEq, Repr

/-- The empty metadata dictionary. -/
def emptyMeta : Meta := {}

/-- Modelled from the spec (§4.2; `_store.py` is not in the analysed tree):
the vector store persists `id → (vector, metadata)`.  It is modelled as an
association list whose operations keep at most one entry per id. -/
abbrev Store := List (ChunkId × (List ℚ × Meta))

/-- Modelled from the spec: `store.get(id)` returns the entry for `id`, if
present. -/
def storeGet (st : Store) (id : ChunkId) : Option (List ℚ × Meta) :=
  (st.find? (fun e => decide (e.1 = id))).map Prod.snd

/-- Modelled from the spec: `store.upsert(id, vector, meta)` replaces any
prior entry with the same id. -/
def storeUpsert (st : Store) (id : ChunkId) (v : List ℚ) (m : Meta) : Store :=
  if st.any (fun e => decide (e.1 = id)) then
    st.map (fun e => if e.1 = id then (id, (v, m)) else e)
  else st ++ [(id, (v, m))]

/-- Modelled from the spec: `store.delete(id)`. -/
def storeDelete (st : Store) (id : ChunkId) : Store :=
  st.filter (fun e => decide (e.1 ≠ id))

/-- Modelled from the spec: `store.all_ids()`. -/
def storeIds (st : Store) : List ChunkId := st.map Prod.fst

/-- Modelled from the spec: `store.all_vectors()`. -/
def storeAllVectors (st : Store) : List (ChunkId × List ℚ) :=
  st.map (fun e => (e.1, e.2.1))

/-- Dot product of two vectors (truncating to the shorter length, as numpy
would only be fed equal-length vectors). -/
def dot (v w : List ℚ) : ℚ := (List.zipWith (fun a b => a * b) v w).sum

/-- Sum of squares of a vector; a unit vector has `sumSq v = 1`. -/
def sumSq (v : List ℚ) : ℚ := dot v v

/-- One search hit of the vector store, as in `_store.py`'s `SearchResult`. -/
structure SearchResult where
  id : ChunkId
  score : ℚ
  metadata : Meta
deriving DecidableEq, Repr

/-- Modelled from the spec (§4.2 `search`): exact cosine top-k over all
entries (cosine of unit vectors equals the dot product), sorted by score
descending with a stable merge sort and clamped to the store size by `take`.
The spec's lexicographic tie-break is not modelled: no verified property
depends on the order within score ties. -/
def storeSearch (st : Store) (q : List ℚ) (k : Nat) : List SearchResult :=
  ((st.map (fun e => SearchResult.mk e.1 (dot q e.2.1) e.2.2)).mergeSort
    (fun a b => decide (b.score ≤ a.score))).take k

/-- One chunk produced by the chunker, as in `_chunker.py`'s `Chunk`. -/
structure Chunk where
  index : Nat
  text : String
  startChar : Nat
  endChar : Nat
deriving DecidableEq, Repr

/-- Whitespace tokenization (spec §4.1 declares the exact tokenizer a free
parameter: total, deterministic). -/
def tokensOf (s : String) : List String :=
  (s.split Char.isWhitespace).filter (fun t => decide (t ≠ ""))

/-- Fuel-bounded windowing over a token list: each window takes `maxT`
tokens and advances by `step`. -/
def windowsGo (maxT step : Nat) : Nat → List String → List (List String)
  | 0, _ => []
  | _, [] => []
  | Nat.succ fuel, toks => toks.take maxT :: windowsGo maxT step fuel (toks.drop step)

/-- Modelled from the spec (§4.1; `_chunker.py` is not in the analysed tree):
`chunk_text` splits a text into bounded, overlapping chunks.  Empty text
yields zero chunks; a text of at most `max_tokens` tokens yields exactly one
chunk with index 0 spanning the whole text; longer texts are windowed over
the token list with a positive step of about `max_tokens - overlap_tokens`.
Chunk indices are consecutive from 0.  Character offsets are token-boundary
approximations: no verified property reads them. -/
def chunkText (text : String) (maxTokens overlapTokens : Nat) : List Chunk :=
  if text = "" then []
  else if (tokensOf text).length ≤ maxTokens then [⟨0, text, 0, text.length⟩]
  else
    ((windowsGo maxTokens (max 1 (maxTokens - overlapTokens)) (tokensOf text).length
        (tokensOf text)).enum).map
      (fun p => ⟨p.1, String.intercalate " " p.2, p.1, p.1 + 1⟩)

/-- The slice of `GundogConfig` that `Indexer.index` reads. -/
structure IndexerConfig where
  chunkingEnabled : Bool
  maxTokens : Nat
  overlapTokens : Nat
  hybridEnabled : Bool
  similarityThreshold : ℚ
deriving DecidableEq, Repr

/-- External collaborators (spec §6): the embedder maps text to a vector
(`embed_batch` preserves order, hence is the pointwise map), and the content
hash is a deterministic fingerprint of the file text
(`Indexer._hash_content`). -/
structure Env where
  embed : String → List ℚ
  hash : String → String

/-- One file as the scanner sees it: path, configured type tag, stat mtime
and UTF-8 content.  The filesystem is modelled by the list of these records;
re-reading a path yields the same content within one pass. -/
structure FileInfo where
  path : String
  ftype : Option String
  mtime : ℚ
  content : String
deriving DecidableEq, Repr

/-- One step of building the `all_files` dict in `Indexer.index`: a later
file with the same path overwrites the stored value but keeps the first
insertion position, mirroring Python dict assignment. -/
def insertFileDict (acc : List FileInfo) (f : FileInfo) : List FileInfo :=
  if acc.any (fun g => decide (g.path = f.path)) then
    acc.map (fun g => if g.path = f.path then f else g)
  else acc ++ [f]

/-- The `all_files` dict of `Indexer.index`, built from the scanned files of
all sources in order. -/
def allFilesOf (files : List FileInfo) : List FileInfo :=
  files.foldl insertFileDict []

/-- Translation of `Indexer._needs_reindex` (`_indexer.py` lines 69-99):
look up the file id, falling back to its chunk-0 id when chunking is
enabled; a missing entry means reindex; an unchanged mtime means skip; an
mtime change is confirmed by comparing the content hash. -/
def needsReindex (cfg : IndexerConfig) (env : Env) (st : Store) (f : FileInfo) : Bool :=
  let r0 := storeGet st ⟨f.path, none⟩
  let r := match r0 with
    | some x => some x
    | none => if cfg.chunkingEnabled then storeGet st (makeChunkId f.path 0) else none
  match r with
  | none => true
  | some (_, m) =>
    if some f.mtime = m.mtime then false
    else decide (some (env.hash f.content) ≠ m.contentHash)

/-- Translation of the removal step of `Indexer.index` (lines 130-144):
every store id whose parent path is not among the current files is deleted,
counting one removal per distinct id. -/
def removePass (st : Store) (current : List String) : Store × Nat :=
  ((st.map Prod.fst).dedup).foldl
    (fun acc id =>
      if id.path ∈ current then acc else (storeDelete acc.1 id, acc.2 + 1))
    (st, 0)

/-- Translation of the selection step of `Indexer.index` (lines 146-154): a
current file is appended to `to_index` iff `rebuild` is set or
`_needs_reindex` holds; otherwise `files_skipped` is incremented. -/
def selectPass (cfg : IndexerConfig) (env : Env) (st : Store) (rebuild : Bool)
    (files : List FileInfo) : List FileInfo × Nat :=
  files.foldl
    (fun acc f =>
      if rebuild || needsReindex cfg env st f then (acc.1 ++ [f], acc.2)
      else (acc.1, acc.2 + 1))
    ([], 0)

/-- One pending embedding input of `Indexer.index` (id, composed text, source
file, optional line range). -/
structure EmbedItem where
  id : ChunkId
  text : String
  fi : FileInfo
  startLine : Option Nat
  endLine : Option Nat
deriving DecidableEq, Repr

/-- `content[:n].count "\n") + 1`, the 1-based line of character offset `n`. -/
def countLinesUpTo (content : String) (n : Nat) : Nat :=
  ((content.toList.take n).count '\n') + 1

/-- The embedding inputs contributed by one selected file (lines 163-206):
with chunking, one item per chunk with the `Path/Chunk i/N` header; without,
a single whole-file item with the `Path` header. -/
def itemsFor (cfg : IndexerConfig) (f : FileInfo) : List EmbedItem :=
  if cfg.chunkingEnabled then
    let chunks := chunkText f.content cfg.maxTokens cfg.overlapTokens
    chunks.map (fun c =>
      { id := makeChunkId f.path c.index
      , text := "Path: " ++ f.path ++ "\nChunk " ++ toString (c.index + 1) ++ "/"
          ++ toString chunks.length ++ "\n\n" ++ c.text
      , fi := f
      , startLine := some (countLinesUpTo f.content c.startChar)
      , endLine := some (countLinesUpTo f.content c.endChar) })
  else
    [{ id := ⟨f.path, none⟩
     , text := "Path: " ++ f.path ++ "\n\n" ++ f.content
     , fi := f, startLine := none, endLine := none }]

/-- Translation of the embed-item building loop (lines 163-210): for each
selected file, with chunking enabled all existing entries whose parent is
the file are deleted before its chunks are queued. -/
def buildItems (cfg : IndexerConfig) (st : Store) (toIdx : List FileInfo) :
    Store × List EmbedItem :=
  toIdx.foldl
    (fun acc f =>
      if cfg.chunkingEnabled then
        (acc.1.filter (fun e => decide (e.1.path ≠ f.path)), acc.2 ++ itemsFor cfg f)
      else (acc.1, acc.2 ++ itemsFor cfg f))
    (st, [])

/-- The metadata stored for one embedded item (lines 224-236): type, stat
mtime and content hash always; parent file, chunk index and line range only
for chunk ids. -/
def metaOfItem (env : Env) (it : EmbedItem) : Meta :=
  { ftype := it.fi.ftype
  , mtime := some it.fi.mtime
  , contentHash := some (env.hash it.fi.content)
  , parentFile := if it.id.chunk.isSome then some it.id.path else none
  , chunkIndex := it.id.chunk
  , startLine := if it.id.chunk.isSome then it.startLine else none
  , endLine := if it.id.chunk.isSome then it.endLine else none }

/-- Translation of the upsert loop (lines 211-241): each embedded item is
upserted with its metadata, counting `chunks_indexed`. -/
def applyUpserts (env : Env) (st : Store) (items : List EmbedItem) : Store × Nat :=
  items.foldl
    (fun acc it =>
      (storeUpsert acc.1 it.id (env.embed it.text) (metaOfItem env it), acc.2 + 1))
    (st, 0)

/-- Reading a file from the modelled filesystem snapshot. -/
def readFile (files : List FileInfo) (p : String) : Option String :=
  (files.find? (fun f => decide (f.path = p))).map FileInfo.content

/-- Translation of the BM25 document builder of `Indexer.index` (lines
264-308): with chunking, each store entry is re-read from its parent file
and re-chunked to recover the chunk text; without, each id is read as a
path.  A path absent from the current snapshot is treated as non-existent
and skipped, as the source does. -/
def bm25DocsOf (cfg : IndexerConfig) (files : List FileInfo) (st : Store) :
    List (ChunkId × String) :=
  if cfg.chunkingEnabled then
    (storeIds st).filterMap (fun itemId =>
      match storeGet st itemId with
      | none => none
      | some (_, m) =>
        let parentF := m.parentFile.getD (idString itemId)
        match readFile files parentF with
        | none => none
        | some content =>
          match m.chunkIndex with
          | some ci =>
            let chunks := chunkText content cfg.maxTokens cfg.overlapTokens
            match chunks[ci]? with
            | some c => some (itemId, parentF ++ "\n" ++ c.text)
            | none => none
          | none => some (itemId, parentF ++ "\n" ++ content))
  else
    (storeIds st).filterMap (fun fileId =>
      match readFile files (idString fileId) with
      | none => none
      | some content => some (fileId, idString fileId ++ "\n" ++ content))

/-- The persisted artifacts of one index directory (spec §6): the store
artifact, the graph artifact (its build inputs: vectors and the build
threshold) and the BM25 artifact (its documents). -/
structure Disk where
  storeArt : Store
  graphArt : Option ((List (ChunkId × List ℚ)) × ℚ)
  bm25Art : Option (List (ChunkId × String))
deriving DecidableEq, Repr

/-- The indexer's mutable state: the in-memory store and the on-disk
artifacts. -/
structure IndexerState where
  store : Store
  disk : Disk
deriving DecidableEq, Repr

/-- The summary dict returned by `Indexer.index`. -/
structure Summary where
  filesTotal : Nat
  filesIndexed : Nat
  filesSkipped : Nat
  filesRemoved : Nat
  chunksIndexed : Nat
deriving DecidableEq, Repr

/-- The observable outcome of one `index()` pass: the new state, the summary
and which rebuild/save effects were performed. -/
structure IndexOutcome where
  state : IndexerState
  summary : Summary
  graphRebuilt : Bool
  bm25Rebuilt : Bool
  storeSaved : Bool
  graphSaved : Bool
  bm25Saved : Bool
deriving DecidableEq, Repr

/-- Translation of `Indexer.index` (`_indexer.py` lines 101-328): scan (the
scanned records are the input `files`), build the `all_files` dict, remove
vanished entries, select files to reindex, queue and embed their items,
upsert them, then rebuild the graph (and, when hybrid is enabled, the BM25
index) and save all artifacts iff `rebuild` was set or anything was indexed
or removed. -/
def indexPass (cfg : IndexerConfig) (env : Env) (files : List FileInfo)
    (st : IndexerState) (rebuild : Bool) : IndexOutcome :=
  let allF := allFilesOf files
  let current := allF.map FileInfo.path
  let rem := removePass st.store current
  let sel := selectPass cfg env rem.1 rebuild allF
  let bi := buildItems cfg rem.1 sel.1
  let up := applyUpserts env bi.1 bi.2
  let summary : Summary :=
    { filesTotal := allF.length
    , filesIndexed := sel.1.length
    , filesSkipped := sel.2
    , filesRemoved := rem.2
    , chunksIndexed := up.2 }
  let needsRebuild := rebuild || decide (0 < summary.filesIndexed)
      || decide (0 < summary.filesRemoved)
  let newStore := up.1
  let disk' : Disk :=
    if needsRebuild then
      { storeArt := newStore
      , graphArt := some (storeAllVectors newStore, cfg.similarityThreshold)
      , bm25Art :=
          if cfg.hybridEnabled then some (bm25DocsOf cfg (allFilesOf files) newStore)
          else st.disk.bm25Art }
    else st.disk
  { state := { store := newStore, disk := disk' }
  , summary := summary
  , graphRebuilt := needsRebuild
  , bm25Rebuilt := cfg.hybridEnabled && needsRebuild
  , storeSaved := needsRebuild
  , graphSaved := needsRebuild
  , bm25Saved := needsRebuild && cfg.hybridEnabled }

/-- The slice of `GundogConfig` that `QueryEngine.query` reads. -/
structure QueryConfig where
  hybridEnabled : Bool
  chunkingEnabled : Bool
  vectorWeight : ℚ
  bm25Weight : ℚ
  expandThreshold : ℚ
  maxExpandDepth : Nat
deriving DecidableEq, Repr

/-- One node of `SimilarityGraph.expand`'s result dict: predecessor on the
retained path, final-hop weight, depth, and the node's type tag (spec
§4.3; `_graph.py` is not in the analysed tree). -/
structure ExpandInfo where
  via : ChunkId
  edgeWeight : ℚ
  depth : Nat
  ftype : String
deriving DecidableEq, Repr

/-- The query engine's state: config, embedder, loaded store, and the BM25
index and similarity graph.  BM25 search and graph expansion are modelled as
abstract functions (their sources are not in the analysed tree), so every
property proved about `query` holds for arbitrary behaviour of these two
collaborators. -/
structure QueryState where
  cfg : QueryConfig
  embed : String → List ℚ
  store : Store
  bm25IsEmpty : Bool
  bm25Search : String → Nat → List (ChunkId × ℚ)
  graphExpand : List ChunkId → ℚ → Nat → List (ChunkId × ExpandInfo)

/-- The RRF score of one id in `QueryEngine._fuse_results` (lines 59-72):
each occurrence at rank `i` in the vector list adds `vector_weight/(60+i)`
and in the BM25 list adds `bm25_weight/(60+i)`. -/
def rrfOf (cfg : QueryConfig) (vres : List SearchResult) (bres : List (ChunkId × ℚ))
    (id : ChunkId) : ℚ :=
  (vres.enum.map (fun p => if p.2.id = id then cfg.vectorWeight / (60 + (p.1 : ℚ)) else 0)).sum
    + (bres.enum.map (fun p => if p.2.1 = id then cfg.bm25Weight / (60 + (p.1 : ℚ)) else 0)).sum

/-- The `vector_scores` lookup of `_fuse_results` with default `0.0`; the
forward assignment loop makes the last occurrence win. -/
def vscoreOf (vres : List SearchResult) (id : ChunkId) : ℚ :=
  ((vres.reverse.find? (fun r => decide (r.id = id))).map SearchResult.score).getD 0

/-- The `metadata_map` lookup of `_fuse_results`: metadata of the last vector
occurrence, else the store entry's metadata, else the empty dict. -/
def fusedMetaOf (st : Store) (vres : List SearchResult) (id : ChunkId) : Meta :=
  match vres.reverse.find? (fun r => decide (r.id = id)) with
  | some r => r.metadata
  | none =>
    match storeGet st id with
    | some x => x.2
    | none => emptyMeta

/-- Translation of `QueryEngine._fuse_results` (lines 47-95): rank the union
of ids by RRF score descending, truncate to `top_k`, and report each id with
its original cosine similarity (default 0.0) and metadata. -/
def fuseResults (cfg : QueryConfig) (st : Store) (vres : List SearchResult)
    (bres : List (ChunkId × ℚ)) (topK : Nat) : List SearchResult :=
  let keys := (vres.map SearchResult.id ++ bres.map Prod.fst).dedup
  let sorted := keys.mergeSort
    (fun a b => decide (rrfOf cfg vres bres b ≤ rrfOf cfg vres bres a))
  (sorted.take topK).map (fun id => ⟨id, vscoreOf vres id, fusedMetaOf st vres id⟩)

/-- The metadata annotation of `_deduplicate_chunks`: chunk results get the
`_chunk_index` and `_parent_file` display keys. -/
def annotateResult (r : SearchResult) : SearchResult :=
  match r.id.chunk with
  | some ci =>
      { r with metadata :=
          { r.metadata with dispChunkIndex := some ci, dispParentFile := some r.id.path } }
  | none => r

/-- One step of the `best_by_file` dict build of `_deduplicate_chunks`: a new
parent key is appended; an existing key is replaced in place iff the new
score is strictly greater. -/
def dedupStep (best : List (String × SearchResult)) (r : SearchResult) :
    List (String × SearchResult) :=
  match best.find? (fun kv => decide (kv.1 = r.id.path)) with
  | none => best ++ [(r.id.path, annotateResult r)]
  | some kv =>
    if kv.2.score < r.score then
      best.map (fun kv2 => if kv2.1 = r.id.path then (r.id.path, annotateResult r) else kv2)
    else best

/-- Translation of `QueryEngine._deduplicate_chunks` (lines 97-122): with
chunking enabled, keep the best-scoring result per parent file; otherwise
pass results through unchanged. -/
def dedupChunks (cfg : QueryConfig) (results : List SearchResult) : List SearchResult :=
  if cfg.chunkingEnabled then (results.foldl dedupStep []).map Prod.snd else results

/-- Translation of `QueryEngine._rescale_score` (lines 124-134). -/
def rescaleScore (rawScore : ℚ) (baseline : ℚ := 1/2) : ℚ :=
  if rawScore ≤ baseline then 0 else (rawScore - baseline) / (1 - baseline)

/-- Python's `round(x, 4)`, modelled on exact rationals as rounding half-up
to 4 decimal places (CPython rounds float ties half-to-even; no verified
property distinguishes the two tie rules, both sides of every comparison
using this same function). -/
def round4 (x : ℚ) : ℚ := (⌊x * 10000 + 1/2⌋ : ℚ) / 10000

/-- Step 2 of `QueryEngine.query` (lines 159-166): dense search for `2*top_k`
candidates, then the `min_score` cosine filter. -/
def denseOf (st : QueryState) (queryText : String) (topK : Nat) (minScore : ℚ) :
    List SearchResult :=
  (storeSearch st.store (st.embed queryText) (topK * 2)).filter
    (fun r => decide (minScore ≤ r.score))

/-- Step 3 of `QueryEngine.query` (lines 172-175): the BM25 candidates
restricted to ids that survived the dense filter. -/
def bm25FilteredOf (st : QueryState) (queryText : String) (topK : Nat) (minScore : ℚ) :
    List (ChunkId × ℚ) :=
  let dense := denseOf st queryText topK minScore
  (st.bm25Search queryText (topK * 2)).filter
    (fun p => decide (p.1 ∈ dense.map SearchResult.id))

/-- The hybrid branch of `QueryEngine.query` (lines 168-180): fuse only when
hybrid is enabled, BM25 is non-empty and the dense filter left something;
with hybrid enabled but no dense survivors the result is empty; with hybrid
disabled or BM25 empty the dense results pass through. -/
def hybridOf (st : QueryState) (queryText : String) (topK : Nat) (minScore : ℚ) :
    List SearchResult :=
  if st.cfg.hybridEnabled && !st.bm25IsEmpty then
    if (denseOf st queryText topK minScore).isEmpty then []
    else fuseResults st.cfg st.store (denseOf st queryText topK minScore)
      (bm25FilteredOf st queryText topK minScore) (topK * 2)
  else denseOf st queryText topK minScore

/-- The `type_filter` application of `QueryEngine.query` (lines 186-187). -/
def typeFilterFn (typeFilter : Option String) (results : List SearchResult) :
    List SearchResult :=
  match typeFilter with
  | some t => results.filter (fun r => decide (r.metadata.ftype = some t))
  | none => results

/-- Steps 3-7 of `QueryEngine.query` (lines 168-193): hybrid fusion, chunk
dedup, type filter, stable re-sort by cosine score descending, truncation to
`top_k`.  These are the results the direct entries are formatted from and
the seeds of graph expansion. -/
def finalResultsOf (st : QueryState) (queryText : String) (topK : Nat)
    (typeFilter : Option String) (minScore : ℚ) : List SearchResult :=
  ((typeFilterFn typeFilter (dedupChunks st.cfg (hybridOf st queryText topK minScore))).mergeSort
    (fun a b => decide (b.score ≤ a.score))).take topK

/-- One formatted direct entry (lines 196-210).  A truthy `start_line` (a
present, non-zero value) adds the line range; the source would raise on a
present `start_line` with a missing `end_line`, a state the indexer never
writes, modelled here with a 0 default. -/
structure DirectEntry where
  path : String
  ftype : String
  score : ℚ
  chunk : Option Nat
  lines : Option (Nat × Nat)
deriving DecidableEq, Repr

/-- Formatting of one direct entry from a search result (lines 196-210):
parent path, type (default "unknown"), rescaled rounded score, chunk index
and line range when present. -/
def mkDirect (r : SearchResult) : DirectEntry :=
  { path := r.id.path
  , ftype := r.metadata.ftype.getD "unknown"
  , score := round4 (rescaleScore r.score)
  , chunk := r.id.chunk
  , lines :=
      match r.metadata.startLine with
      | some sl => if sl ≠ 0 then some (sl, r.metadata.endLine.getD 0) else none
      | none => none }

/-- One formatted related entry (lines 246-255). -/
structure RelatedEntry where
  path : String
  ftype : String
  via : String
  edgeWeight : ℚ
  depth : Nat
  chunk : Option Nat
deriving DecidableEq, Repr

/-- Formatting of one related entry from an expanded node (lines 245-255). -/
def mkRelated (p : ChunkId × ExpandInfo) : RelatedEntry :=
  { path := p.1.path
  , ftype := p.2.ftype
  , via := p.2.via.path
  , edgeWeight := round4 p.2.edgeWeight
  , depth := p.2.depth
  , chunk := p.1.chunk }

/-- The expansion depth of `QueryEngine.query` line 216, `expand_depth or
config.graph.max_expand_depth`: Python's `or` falls back on any falsy value,
so an explicit 0 behaves like `None`. -/
def effectiveDepth (cfg : QueryConfig) (expandDepth : Option Nat) : Nat :=
  match expandDepth with
  | some d => if d = 0 then cfg.maxExpandDepth else d
  | none => cfg.maxExpandDepth

/-- One step of the related-results loop of `QueryEngine.query` (lines
230-255); the accumulator carries `seen_parent_files` and the output list.
A node whose id is a seed, or whose parent is a direct parent or already
seen, is skipped; the parent is marked seen before the type filter is
applied, as in the source. -/
def relatedStep (seeds : List ChunkId) (directParents : List String)
    (typeFilter : Option String) (acc : List String × List RelatedEntry)
    (p : ChunkId × ExpandInfo) : List String × List RelatedEntry :=
  if p.1 ∈ seeds then acc
  else if p.1.path ∈ directParents ∨ p.1.path ∈ acc.1 then acc
  else
    match typeFilter with
    | some t =>
        if p.2.ftype ≠ t then (acc.1 ++ [p.1.path], acc.2)
        else (acc.1 ++ [p.1.path], acc.2 ++ [mkRelated p])
    | none => (acc.1 ++ [p.1.path], acc.2 ++ [mkRelated p])

/-- Phase 2 of `QueryEngine.query` (lines 212-258): graph expansion seeded by
the ids of the direct results, the dedup loop above, and the final stable
sort by edge weight descending. -/
def relatedOf (st : QueryState) (finalResults : List SearchResult) (expand : Bool)
    (expandDepth : Option Nat) (typeFilter : Option String) : List RelatedEntry :=
  if expand ∧ ¬finalResults.isEmpty then
    (((st.graphExpand (finalResults.map SearchResult.id) st.cfg.expandThreshold
          (effectiveDepth st.cfg expandDepth)).foldl
        (relatedStep (finalResults.map SearchResult.id)
          ((finalResults.map SearchResult.id).map ChunkId.path) typeFilter)
        ([], [])).2).mergeSort
      (fun a b => decide (b.edgeWeight ≤ a.edgeWeight))
  else []

/-- The result of a query, as `_query.py`'s `QueryResult`. -/
structure QueryResult where
  query : String
  direct : List DirectEntry
  related : List RelatedEntry
deriving DecidableEq, Repr

/-- Translation of `QueryEngine.query` (lines 136-264). -/
def query (st : QueryState) (queryText : String) (topK : Nat := 10) (expand : Bool := true)
    (expandDepth : Option Nat := none) (typeFilter : Option String := none)
    (minScore : ℚ := 1/2) : QueryResult :=
  let finalResults := finalResultsOf st queryText topK typeFilter minScore
  { query := queryText
  , direct := finalResults.map mkDirect
  , related := relatedOf st finalResults expand expandDepth typeFilter }

/-- The errors `IndexManager.load_index` can raise: the unknown-index
`ValueError` or any exception escaping the engine construction. -/
inductive LoadError where
  | unknownIndex (name : String)
  | constructFailed (msg : String)
deriving DecidableEq, Repr

/-- The index manager's state (`_daemon.py` lines 18-32): the registry
`config.indexes` (name to directory), the active index name and the current
engine. -/
structure ManagerState (E : Type) where
  registry : List (String × String)
  activeIndex : Option String
  engine : Option E

/-- Translation of `IndexManager.load_index` (`_daemon.py` lines 34-62) with
Python exception semantics made explicit: a raise leaves the manager object
unmodified, so the function returns the (possibly unchanged) state together
with the raised error, if any.  `construct` stands for the
`QueryEngine(gundog_config)` construction from the resolved directory, which
may itself fail. -/
def loadIndex {E : Type} (construct : String → Except String E)
    (st : ManagerState E) (name : String) : ManagerState E × Option LoadError :=
  if st.activeIndex = some name ∧ st.engine.isSome then (st, none)
  else
    match st.registry.find? (fun kv => decide (kv.1 = name)) with
    | none => (st, some (LoadError.unknownIndex name))
    | some kv =>
      match construct kv.2 with
      | Except.error e => (st, some (LoadError.constructFailed e))
      | Except.ok eng => ({ st with engine := some eng, activeIndex := some name }, none)

/-! ### Stage shorthands and projection lemmas for `indexPass` -/

/-- The current file paths of a pass (keys of the `all_files` dict). -/
def currentOf (files : List FileInfo) : List String :=
  (allFilesOf files).map FileInfo.path

/-- The removal stage of a pass applied to a store. -/
def remOf (files : List FileInfo) (store : Store) : Store × Nat :=
  removePass store (currentOf files)

/-- The selection stage of a pass: `to_index` and `files_skipped`. -/
def selOf (cfg : IndexerConfig) (env : Env) (files : List FileInfo) (store : Store)
    (rebuild : Bool) : List FileInfo × Nat :=
  selectPass cfg env (remOf files store).1 rebuild (allFilesOf files)

/-- The item-building stage of a pass. -/
def itemsStage (cfg : IndexerConfig) (env : Env) (files : List FileInfo) (store : Store)
    (rebuild : Bool) : Store × List EmbedItem :=
  buildItems cfg (remOf files store).1 (selOf cfg env files store rebuild).1

/-- The upsert stage of a pass: the final store and `chunks_indexed`. -/
def upStage (cfg : IndexerConfig) (env : Env) (files : List FileInfo) (store : Store)
    (rebuild : Bool) : Store × Nat :=
  applyUpserts env (itemsStage cfg env files store rebuild).1
    (itemsStage cfg env files store rebuild).2

theorem indexPass_summary (cfg : IndexerConfig) (env : Env) (files : List FileInfo)
    (st : IndexerState) (rebuild : Bool) :
    (indexPass cfg env files st rebuild).summary =
      { filesTotal := (allFilesOf files).length
      , filesIndexed := (selOf cfg env files st.store rebuild).1.length
      , filesSkipped := (selOf cfg env files st.store rebuild).2
      , filesRemoved := (remOf files st.store).2
      , chunksIndexed := (upStage cfg env files st.store rebuild).2 } := rfl

theorem indexPass_store (cfg : IndexerConfig) (env : Env) (files : List FileInfo)
    (st : IndexerState) (rebuild : Bool) :
    (indexPass cfg env files st rebuild).state.store
      = (upStage cfg env files st.store rebuild).1 := rfl

theorem indexPass_graphRebuilt (cfg : IndexerConfig) (env : Env) (files : List FileInfo)
    (st : IndexerState) (rebuild : Bool) :
    (indexPass cfg env files st rebuild).graphRebuilt
      = (rebuild || decide (0 < (indexPass cfg env files st rebuild).summary.filesIndexed)
          || decide (0 < (indexPass cfg env files st rebuild).summary.filesRemoved)) := rfl

theorem indexPass_bm25Rebuilt (cfg : IndexerConfig) (env : Env) (files : List FileInfo)
    (st : IndexerState) (rebuild : Bool) :
    (indexPass cfg env files st rebuild).bm25Rebuilt
      = (cfg.hybridEnabled && (indexPass cfg env files st rebuild).graphRebuilt) := rfl

theorem indexPass_storeSaved (cfg : IndexerConfig) (env : Env) (files : List FileInfo)
    (st : IndexerState) (rebuild : Bool) :
    (indexPass cfg env files st rebuild).storeSaved
      = (indexPass cfg env files st rebuild).graphRebuilt := rfl

theorem indexPass_graphSaved (cfg : IndexerConfig) (env : Env) (files : List FileInfo)
    (st : IndexerState) (rebuild : Bool) :
    (indexPass cfg env files st rebuild).graphSaved
      = (indexPass cfg env files st rebuild).graphRebuilt := rfl

theorem indexPass_bm25Saved (cfg : IndexerConfig) (env : Env) (files : List FileInfo)
    (st : IndexerState) (rebuild : Bool) :
    (indexPass cfg env files st rebuild).bm25Saved
      = ((indexPass cfg env files st rebuild).graphRebuilt && cfg.hybridEnabled) := rfl

theorem indexPass_disk_of_skipped (cfg : IndexerConfig) (env : Env) (files : List FileInfo)
    (st : IndexerState) (rebuild : Bool)
    (h : (indexPass cfg env files st rebuild).graphRebuilt = false) :
    (indexPass cfg env files st rebuild).state.disk = st.disk := by
  have h' : (rebuild || decide (0 < (indexPass cfg env files st rebuild).summary.filesIndexed)
      || decide (0 < (indexPass cfg env files st rebuild).summary.filesRemoved)) = false := by
    rw [← indexPass_graphRebuilt]; exact h
  rw [indexPass_summary] at h'
  show (if (rebuild
        || decide (0 < (selOf cfg env files st.store rebuild).1.length)
        || decide (0 < (remOf files st.store).2)) = true then _ else st.disk) = st.disk
  rw [h']
  simp

/-! ### Shared fixtures for witnesses and counterexamples -/

/-- A deterministic embedder and content hash for concrete runs. -/
def fxEnv : Env := { embed := fun _ => [1], hash := fun s => s }

/-- Concrete indexer config: whole-file mode, hybrid enabled. -/
def fxCfgH : IndexerConfig :=
  { chunkingEnabled := false, maxTokens := 10, overlapTokens := 2
  , hybridEnabled := true, similarityThreshold := 1/2 }

/-- Concrete indexer config: whole-file mode, hybrid disabled. -/
def fxCfgNH : IndexerConfig := { fxCfgH with hybridEnabled := false }

/-- Concrete indexer config: chunking enabled, hybrid enabled. -/
def fxCfgChunk : IndexerConfig := { fxCfgH with chunkingEnabled := true }

/-- An empty index directory. -/
def fxState : IndexerState :=
  { store := [], disk := { storeArt := [], graphArt := none, bm25Art := none } }

/-- A small markdown file. -/
def fxFileA : FileInfo :=
  { path := "a.md", ftype := some "doc", mtime := 1, content := "hello world" }

/-- A file with empty content. -/
def fxFileEmpty : FileInfo :=
  { path := "e.md", ftype := some "doc", mtime := 1, content := "" }

/-! ### C10 -/

/-- C10: calling `QueryEngine.query` with `expand_depth = 0` behaves
identically to `expand_depth = None`: the Python expression
`expand_depth or config.graph.max_expand_depth` treats 0 as falsy, so both
calls resolve to the configured depth and produce the same result; a caller
cannot request a zero-depth expansion through this parameter. -/
theorem c10_expand_depth_zero_is_none (st : QueryState) (queryText : String) (topK : Nat)
    (expand : Bool) (typeFilter : Option String) (minScore : ℚ) :
    query st queryText topK expand (some 0) typeFilter minScore
      = query st queryText topK expand none typeFilter minScore := rfl

/-! ### C6 -/

theorem rescaleScore_eq_max (x : ℚ) :
    rescaleScore x = max 0 ((x - 1/2) / (1 - 1/2)) := by
  have hval : (x - 1/2) / (1 - 1/2) = 2*x - 1 := by
    rw [show (1:ℚ) - 1/2 = 1/2 by norm_num, div_eq_mul_inv,
      show ((1:ℚ)/2)⁻¹ = 2 by norm_num]
    ring
  unfold rescaleScore
  rw [hval]
  split
  · next h => exact (max_eq_left (by linarith)).symm
  · next h => exact (max_eq_right (by push_neg at h; linarith)).symm

/-- C6: every direct entry's reported score is
`max(0, (raw - 0.5)/(1 - 0.5))` applied to that entry's raw cosine
similarity, rounded to 4 decimal places: the direct score list equals the
pointwise image of the final search results under that formula. -/
theorem c6_direct_scores_rescaled (st : QueryState) (queryText : String) (topK : Nat)
    (expand : Bool) (expandDepth : Option Nat) (typeFilter : Option String) (minScore : ℚ) :
    (query st queryText topK expand expandDepth typeFilter minScore).direct.map
        DirectEntry.score
      = (finalResultsOf st queryText topK typeFilter minScore).map
          (fun r => round4 (max 0 ((r.score - 1/2) / (1 - 1/2)))) := by
  show ((finalResultsOf st queryText topK typeFilter minScore).map mkDirect).map
      DirectEntry.score = _
  rw [List.map_map]
  congr 1
  funext r
  show round4 (rescaleScore r.score) = _
  rw [rescaleScore_eq_max]

/-! ### C9 -/

theorem selectPass_go (cfg : IndexerConfig) (env : Env) (st : Store) (rebuild : Bool)
    (files : List FileInfo) :
    ∀ acc : List FileInfo × Nat,
      (files.foldl
          (fun acc f =>
            if rebuild || needsReindex cfg env st f then (acc.1 ++ [f], acc.2)
            else (acc.1, acc.2 + 1)) acc).1.length
        + (files.foldl
            (fun acc f =>
              if rebuild || needsReindex cfg env st f then (acc.1 ++ [f], acc.2)
              else (acc.1, acc.2 + 1)) acc).2
      = acc.1.length + acc.2 + files.length := by
  induction files with
  | nil => intro acc; simp
  | cons f fs ih =>
    intro acc
    simp only [List.foldl_cons]
    cases h : (rebuild || needsReindex cfg env st f) with
    | true =>
      rw [if_pos rfl]
      rw [ih]
      simp only [List.length_append, List.length_cons, List.length_nil]
      omega
    | false =>
      rw [if_neg (by simp)]
      rw [ih]
      simp only [List.length_cons]
      omega

/-- C9: every summary returned by `index()` satisfies
`files_total = files_indexed + files_skipped`: each scanned file is counted
exactly once in the selection loop, as selected or as skipped, and the
counts are fixed before any read or embedding happens. -/
theorem c9_total_is_indexed_plus_skipped (cfg : IndexerConfig) (env : Env)
    (files : List FileInfo) (st : IndexerState) (rebuild : Bool) :
    (indexPass cfg env files st rebuild).summary.filesTotal
      = (indexPass cfg env files st rebuild).summary.filesIndexed
        + (indexPass cfg env files st rebuild).summary.filesSkipped := by
  rw [indexPass_summary]
  show (allFilesOf files).length
    = (selOf cfg env files st.store rebuild).1.length + (selOf cfg env files st.store rebuild).2
  unfold selOf selectPass
  have h := selectPass_go cfg env (remOf files st.store).1 rebuild (allFilesOf files) ([], 0)
  simp only [List.length_nil] at h
  omega

/-! ### C2 -/

/-- C2 counterexample: the claimed "rebuilt iff at least one file was
indexed or at least one entry was removed" fails in both directions.  First
run: `rebuild=True` over an empty corpus and empty store indexes and removes
nothing, yet the graph is rebuilt and the store saved.  Second run: with
hybrid disabled, a pass that indexes one file rebuilds the graph but not the
BM25 index. -/
theorem c2_counterexample :
    ((indexPass fxCfgH fxEnv [] fxState true).summary.filesIndexed = 0
      ∧ (indexPass fxCfgH fxEnv [] fxState true).summary.filesRemoved = 0
      ∧ (indexPass fxCfgH fxEnv [] fxState true).graphRebuilt = true
      ∧ (indexPass fxCfgH fxEnv [] fxState true).storeSaved = true)
    ∧ ((indexPass fxCfgNH fxEnv [fxFileA] fxState false).summary.filesIndexed = 1
      ∧ (indexPass fxCfgNH fxEnv [fxFileA] fxState false).bm25Rebuilt = false) := by
  with_unfolding_all decide

/-- C2 (amended): in every `index()` pass the similarity graph is rebuilt
iff `rebuild` is true or at least one file was indexed or at least one entry
was removed; the BM25 index is rebuilt iff additionally hybrid search is
enabled; and whenever the graph rebuild is skipped no save of the store,
graph or BM25 index is performed and the on-disk artifacts are unchanged. -/
theorem c2_rebuild_iff_changed_or_forced (cfg : IndexerConfig) (env : Env)
    (files : List FileInfo) (st : IndexerState) (rebuild : Bool) :
    ((indexPass cfg env files st rebuild).graphRebuilt = true
        ↔ (rebuild = true ∨ 0 < (indexPass cfg env files st rebuild).summary.filesIndexed
            ∨ 0 < (indexPass cfg env files st rebuild).summary.filesRemoved))
    ∧ ((indexPass cfg env files st rebuild).bm25Rebuilt = true
        ↔ (cfg.hybridEnabled = true
            ∧ (indexPass cfg env files st rebuild).graphRebuilt = true))
    ∧ ((indexPass cfg env files st rebuild).graphRebuilt = false →
        (indexPass cfg env files st rebuild).storeSaved = false
          ∧ (indexPass cfg env files st rebuild).graphSaved = false
          ∧ (indexPass cfg env files st rebuild).bm25Saved = false
          ∧ (indexPass cfg env files st rebuild).state.disk = st.disk) := by
  refine ⟨?_, ?_, ?_⟩
  · rw [indexPass_graphRebuilt]
    simp [decide_eq_true_iff]
    tauto
  · rw [indexPass_bm25Rebuilt]
    simp
  · intro h
    refine ⟨?_, ?_, ?_, indexPass_disk_of_skipped cfg env files st rebuild h⟩
    · rw [indexPass_storeSaved, h]
    · rw [indexPass_graphSaved, h]
    · rw [indexPass_bm25Saved, h, Bool.false_and]

/-- Witness for C2 (amended) at a concrete no-change pass: nothing indexed
or removed with `rebuild=False`, so the rebuild is skipped and the disk
untouched. -/
theorem c2_rebuild_iff_changed_or_forced_witness :
    (indexPass fxCfgH fxEnv [] fxState false).storeSaved = false
      ∧ (indexPass fxCfgH fxEnv [] fxState false).state.disk = fxState.disk := by
  have h := (c2_rebuild_iff_changed_or_forced fxCfgH fxEnv [] fxState false).2.2
    (by with_unfolding_all decide)
  exact ⟨h.1, h.2.2.2⟩

/-! ### C8 -/

/-- Reachability invariant of the index manager: whenever an engine is held,
the active index name is a registered one.  It holds for the initial state
(no engine) and is preserved by `load_index`, which only installs an engine
under a name found in the registry. -/
def managerInv {E : Type} (st : ManagerState E) : Prop :=
  st.engine.isSome = true →
    ∀ n, st.activeIndex = some n → n ∈ st.registry.map Prod.fst

theorem loadIndex_preserves_inv {E : Type} (construct : String → Except String E)
    (st : ManagerState E) (name : String) (hInv : managerInv st) :
    managerInv (loadIndex construct st name).1 := by
  unfold loadIndex
  split
  · exact hInv
  · split
    · exact hInv
    · next kv hfind =>
      cases hc : construct kv.2 with
      | error e => simp only [hc]; exact hInv
      | ok eng =>
        simp only [hc]
        intro _ n hn
        have hkv : kv.1 = name := by
          have := List.find?_some hfind
          simpa using this
        have hmem : kv ∈ st.registry := List.mem_of_find?_eq_some hfind
        cases hn
        rw [← hkv]
        exact List.mem_map_of_mem Prod.fst hmem

/-- C8: on every manager state reachable by the daemon (engine present only
under a registered active name), `load_index` with a name not in the
registry fails with the unknown-index error and leaves the state untouched;
any failing load (unknown name or an error from the engine construction)
leaves `active_index` and `engine` unchanged; and the state changes only
when the new engine was fully constructed, to exactly the state holding
that engine under the requested name. -/
theorem c8_load_index_fail_safe {E : Type} (construct : String → Except String E)
    (st : ManagerState E) (name : String) (hInv : managerInv st) :
    (name ∉ st.registry.map Prod.fst →
        loadIndex construct st name = (st, some (LoadError.unknownIndex name)))
    ∧ (∀ err, (loadIndex construct st name).2 = some err →
        (loadIndex construct st name).1 = st)
    ∧ ((loadIndex construct st name).1 ≠ st →
        ∃ kv, st.registry.find? (fun kv => decide (kv.1 = name)) = some kv
          ∧ ∃ eng, construct kv.2 = Except.ok eng
          ∧ loadIndex construct st name
              = ({ registry := st.registry, activeIndex := some name
                 , engine := some eng }, none)) := by
  refine ⟨?_, ?_, ?_⟩
  · intro hname
    unfold loadIndex
    rw [if_neg ?early]
    case early =>
      intro hearly
      exact hname (hInv hearly.2 name hearly.1)
    have hfind : st.registry.find? (fun kv => decide (kv.1 = name)) = none := by
      rw [List.find?_eq_none]
      intro kv hkv hpred
      exact hname (by
        have : kv.1 = name := by simpa using hpred
        rw [← this]
        exact List.mem_map_of_mem Prod.fst hkv)
    rw [hfind]
  · intro err
    unfold loadIndex
    split
    · intro h; cases h
    · split
      · intro _; rfl
      · next kv hfind =>
        cases hc : construct kv.2 with
        | error e => intro _; rfl
        | ok eng => intro h; cases h
  · intro hchanged
    unfold loadIndex at hchanged ⊢
    by_cases hearly : st.activeIndex = some name ∧ st.engine.isSome = true
    · rw [if_pos hearly] at hchanged
      exact absurd rfl hchanged
    · rw [if_neg hearly] at hchanged
      cases hfind : st.registry.find? (fun kv => decide (kv.1 = name)) with
      | none =>
        rw [hfind] at hchanged
        exact absurd rfl hchanged
      | some kv =>
        rw [hfind] at hchanged
        cases hc : construct kv.2 with
        | error e =>
          have hch2 : (match construct kv.2 with
              | Except.error e => (st, some (LoadError.constructFailed e))
              | Except.ok eng =>
                  ({ registry := st.registry, activeIndex := some name
                   , engine := some eng }, none)).1 ≠ st := hchanged
          rw [hc] at hch2
          exact absurd rfl hch2
        | ok eng =>
          refine ⟨kv, rfl, eng, hc, ?_⟩
          rw [if_neg hearly]
          show (match construct kv.2 with
            | Except.error e => (st, some (LoadError.constructFailed e))
            | Except.ok eng =>
                ({ registry := st.registry, activeIndex := some name
                 , engine := some eng }, none)) = _
          rw [hc]

/-- Witness for C8 at a concrete manager over registry `[("x", "/px")]`:
loading the unregistered name "y" fails with the unknown-index error and
preserves the state. -/
theorem c8_load_index_fail_safe_witness :
    loadIndex (fun p => Except.ok (p.length))
        ({ registry := [("x", "/px")], activeIndex := none
         , engine := none } : ManagerState Nat) "y"
      = ({ registry := [("x", "/px")], activeIndex := none, engine := none },
          some (LoadError.unknownIndex "y")) :=
  (c8_load_index_fail_safe (fun p => Except.ok (p.length))
      { registry := [("x", "/px")], activeIndex := none, engine := none } "y"
      (by intro h _ _; cases h)).1
    (by with_unfolding_all decide)

/-! ### C4 -/

theorem vscoreOf_mem (vres : List SearchResult) (id : ChunkId)
    (h : id ∈ vres.map SearchResult.id) :
    ∃ d ∈ vres, d.id = id ∧ vscoreOf vres id = d.score := by
  unfold vscoreOf
  cases hf : vres.reverse.find? (fun r => decide (r.id = id)) with
  | none =>
    exfalso
    rw [List.find?_eq_none] at hf
    obtain ⟨d, hd, hdid⟩ := List.mem_map.mp h
    exact absurd (by simpa using hf d (List.mem_reverse.mpr hd)) (by simp [hdid])
  | some r0 =>
    have hp : r0.id = id := by simpa using List.find?_some hf
    have hmem : r0 ∈ vres := List.mem_reverse.mp (List.mem_of_find?_eq_some hf)
    exact ⟨r0, hmem, hp, by simp⟩

theorem fuse_mem_score (cfg : QueryConfig) (st : Store) (vres : List SearchResult)
    (bres : List (ChunkId × ℚ)) (topK : Nat)
    (hb : ∀ p ∈ bres, p.1 ∈ vres.map SearchResult.id) :
    ∀ r ∈ fuseResults cfg st vres bres topK,
      ∃ d ∈ vres, d.id = r.id ∧ d.score = r.score := by
  intro r hr
  unfold fuseResults at hr
  simp only [List.mem_map] at hr
  obtain ⟨id, hid, rfl⟩ := hr
  have hid2 : id ∈ (vres.map SearchResult.id ++ bres.map Prod.fst).dedup :=
    ((List.mergeSort_perm _ _).mem_iff).mp (List.mem_of_mem_take hid)
  rw [List.mem_dedup, List.mem_append] at hid2
  have hidv : id ∈ vres.map SearchResult.id := by
    rcases hid2 with h | h
    · exact h
    · obtain ⟨p, hp, hpid⟩ := List.mem_map.mp h
      rw [← hpid]
      exact hb p hp
  obtain ⟨d, hd, hdid, hds⟩ := vscoreOf_mem vres id hidv
  exact ⟨d, hd, hdid, hds.symm⟩

/-- C4: whenever hybrid fusion runs — hybrid enabled, BM25 index non-empty
and at least one dense result at or above `min_score` — the BM25 list passed
to fusion holds only ids that survived the dense filter, the hybrid output
is exactly the RRF fusion of the dense survivors with that restricted list,
and every fused result carries the id and original cosine similarity of a
dense survivor, never the RRF value. -/
theorem c4_fused_scores_are_cosines (st : QueryState) (queryText : String) (topK : Nat)
    (minScore : ℚ) (hHyb : st.cfg.hybridEnabled = true) (hBm : st.bm25IsEmpty = false)
    (hDense : denseOf st queryText topK minScore ≠ []) :
    (hybridOf st queryText topK minScore
        = fuseResults st.cfg st.store (denseOf st queryText topK minScore)
            (bm25FilteredOf st queryText topK minScore) (topK * 2))
    ∧ (∀ p ∈ bm25FilteredOf st queryText topK minScore,
        p.1 ∈ (denseOf st queryText topK minScore).map SearchResult.id)
    ∧ (∀ r ∈ hybridOf st queryText topK minScore,
        ∃ d ∈ denseOf st queryText topK minScore, d.id = r.id ∧ d.score = r.score) := by
  have hsub : ∀ p ∈ bm25FilteredOf st queryText topK minScore,
      p.1 ∈ (denseOf st queryText topK minScore).map SearchResult.id := by
    intro p hp
    unfold bm25FilteredOf at hp
    have := (List.mem_filter.mp hp).2
    simpa using this
  have heq : hybridOf st queryText topK minScore
      = fuseResults st.cfg st.store (denseOf st queryText topK minScore)
          (bm25FilteredOf st queryText topK minScore) (topK * 2) := by
    unfold hybridOf
    rw [hHyb, hBm]
    simp [List.isEmpty_iff, hDense]
  refine ⟨heq, hsub, ?_⟩
  rw [heq]
  exact fuse_mem_score st.cfg st.store _ _ _ hsub

/-- Concrete query-engine state for witnesses: two stored unit vectors,
hybrid enabled, a non-empty BM25 index whose search mentions one surviving
and one unknown id, and no graph edges. -/
def fxQState : QueryState :=
  { cfg := { hybridEnabled := true, chunkingEnabled := false, vectorWeight := 7/10
           , bm25Weight := 3/10, expandThreshold := 7/10, maxExpandDepth := 2 }
  , embed := fun _ => [1, 0]
  , store := [(⟨"a.md", none⟩, ([1, 0], { ftype := some "doc" }))
             , (⟨"b.md", none⟩, ([0, 1], { ftype := some "doc" }))]
  , bm25IsEmpty := false
  , bm25Search := fun _ _ => [(⟨"a.md", none⟩, 2), (⟨"c.md", none⟩, 1)]
  , graphExpand := fun _ _ _ => [] }

/-- Witness for C4 at `fxQState`: the fused result for `a.md` (a member of
the hybrid output) carries the dense cosine 1. -/
theorem c4_fused_scores_are_cosines_witness :
    ∃ d ∈ denseOf fxQState "q" 10 (1/2), d.id = ChunkId.mk "a.md" none ∧ d.score = 1 := by
  have h := (c4_fused_scores_are_cosines fxQState "q" 10 (1/2) rfl rfl
      (by with_unfolding_all decide)).2.2
  exact h ⟨⟨"a.md", none⟩, 1, { ftype := some "doc" }⟩ (by with_unfolding_all decide)

/-! ### C1 -/

/-- The store entry `_needs_reindex` examines: the entry under the file's
path, falling back to the chunk-0 entry when chunking is enabled. -/
def lookupOf (cfg : IndexerConfig) (st : Store) (f : FileInfo) : Option (List ℚ × Meta) :=
  match storeGet st ⟨f.path, none⟩ with
  | some x => some x
  | none => if cfg.chunkingEnabled then storeGet st (makeChunkId f.path 0) else none

/-- The reindex condition in the words of claim C1 (the spec's step 3,
stated apart from the code so the two can be compared): the store holds no
entry under the file's path (nor, when chunking is enabled, under its
chunk-0 id), or the current mtime differs from the stored mtime metadata
and the current content hash differs from the stored content hash, both
read from the entry the lookup found. -/
def needsReindexSpec (cfg : IndexerConfig) (env : Env) (st : Store) (f : FileInfo) : Prop :=
  (storeGet st ⟨f.path, none⟩ = none
    ∧ (cfg.chunkingEnabled = true → storeGet st (makeChunkId f.path 0) = none))
  ∨ (∃ vm, lookupOf cfg st f = some vm
      ∧ some f.mtime ≠ vm.2.mtime
      ∧ some (env.hash f.content) ≠ vm.2.contentHash)

theorem needsReindex_iff_spec (cfg : IndexerConfig) (env : Env) (st : Store) (f : FileInfo) :
    needsReindex cfg env st f = true ↔ needsReindexSpec cfg env st f := by
  unfold needsReindex needsReindexSpec lookupOf
  cases h0 : storeGet st ⟨f.path, none⟩ with
  | some x =>
    by_cases hm : some f.mtime = x.2.mtime
    · simp [hm]
    · simp [hm]
  | none =>
    cases hc : cfg.chunkingEnabled with
    | false => simp
    | true =>
      cases h1 : storeGet st (makeChunkId f.path 0) with
      | none => simp
      | some x =>
        by_cases hm : some f.mtime = x.2.mtime
        · simp [hm]
        · simp [hm]

theorem selectPass_eq_filter (cfg : IndexerConfig) (env : Env) (st : Store) (rebuild : Bool)
    (files : List FileInfo) :
    selectPass cfg env st rebuild files
      = (files.filter (fun f => rebuild || needsReindex cfg env st f),
         (files.filter (fun f => !(rebuild || needsReindex cfg env st f))).length) := by
  unfold selectPass
  suffices h : ∀ acc : List FileInfo × Nat,
      files.foldl
          (fun acc f =>
            if rebuild || needsReindex cfg env st f then (acc.1 ++ [f], acc.2)
            else (acc.1, acc.2 + 1)) acc
        = (acc.1 ++ files.filter (fun f => rebuild || needsReindex cfg env st f),
           acc.2 + (files.filter (fun f => !(rebuild || needsReindex cfg env st f))).length) by
    rw [h ([], 0)]
    simp
  induction files with
  | nil => intro acc; simp
  | cons f fs ih =>
    intro acc
    simp only [List.foldl_cons]
    cases h : (rebuild || needsReindex cfg env st f) with
    | true =>
      rw [if_pos rfl, ih]
      simp only [List.filter_cons, h]
      simp
    | false =>
      rw [if_neg (by simp), ih]
      simp only [List.filter_cons, h]
      simp
      omega

/-- C1: for every current file of an `index(rebuild)` pass, the file is
selected for (re)indexing iff `rebuild` is true, or the store (after the
removal step) holds no entry under its path (nor, when chunking is enabled,
under its chunk-0 id), or its current mtime differs from the stored mtime
metadata and its current content hash differs from the stored content hash;
`files_skipped` counts exactly the files not selected. -/
theorem c1_selection_iff (cfg : IndexerConfig) (env : Env) (files : List FileInfo)
    (st : IndexerState) (rebuild : Bool) :
    (∀ f ∈ allFilesOf files,
        (f ∈ (selOf cfg env files st.store rebuild).1
          ↔ (rebuild = true ∨ needsReindexSpec cfg env (remOf files st.store).1 f)))
    ∧ (indexPass cfg env files st rebuild).summary.filesSkipped
        = ((allFilesOf files).filter
            (fun f => !(rebuild || needsReindex cfg env (remOf files st.store).1 f))).length := by
  constructor
  · intro f hf
    show f ∈ (selectPass cfg env (remOf files st.store).1 rebuild (allFilesOf files)).1 ↔ _
    rw [selectPass_eq_filter]
    simp only [List.mem_filter]
    constructor
    · rintro ⟨-, hcond⟩
      have hcond' : rebuild = true
          ∨ needsReindex cfg env (remOf files st.store).1 f = true := by
        simpa using hcond
      rcases hcond' with hr | hn
      · exact Or.inl hr
      · exact Or.inr ((needsReindex_iff_spec cfg env _ f).mp hn)
    · intro h
      refine ⟨hf, ?_⟩
      rcases h with hr | hn
      · simp [hr]
      · simp [(needsReindex_iff_spec cfg env _ f).mpr hn]
  · rw [indexPass_summary]
    show (selOf cfg env files st.store rebuild).2 = _
    unfold selOf
    rw [selectPass_eq_filter]

/-- Witness for C1 at a one-file corpus over an empty store: the new file is
selected (the store holds no entry for it) and nothing is skipped. -/
theorem c1_selection_iff_witness :
    fxFileA ∈ (selOf fxCfgH fxEnv [fxFileA] fxState.store false).1
      ∧ (indexPass fxCfgH fxEnv [fxFileA] fxState false).summary.filesSkipped = 0 := by
  have h := c1_selection_iff fxCfgH fxEnv [fxFileA] fxState false
  constructor
  · exact (h.1 fxFileA (by with_unfolding_all decide)).mpr
      (Or.inr (Or.inl (by with_unfolding_all decide)))
  · rw [h.2]
    with_unfolding_all decide

/-! ### C5 helper lemmas -/

theorem annotateResult_id (r : SearchResult) : (annotateResult r).id = r.id := by
  unfold annotateResult
  cases r.id.chunk <;> rfl

theorem annotateResult_score (r : SearchResult) : (annotateResult r).score = r.score := by
  unfold annotateResult
  cases r.id.chunk <;> rfl

/-- Well-formedness of an engine state for the dedup invariant: the loaded
store has one entry per id (its operations keep it so), and ids are chunk
ids only when chunking is enabled (the indexer writes chunk ids in chunked
mode and whole-file ids otherwise). -/
def storeWF (st : QueryState) : Prop :=
  (st.store.map Prod.fst).Nodup
    ∧ (st.cfg.chunkingEnabled = true ∨ ∀ id ∈ st.store.map Prod.fst, id.chunk = none)

theorem storeSearch_ids_sub (st : Store) (q : List ℚ) (k : Nat) :
    ∀ r ∈ storeSearch st q k, r.id ∈ st.map Prod.fst := by
  intro r hr
  unfold storeSearch at hr
  have h1 : r ∈ (st.map (fun e => SearchResult.mk e.1 (dot q e.2.1) e.2.2)).mergeSort
      (fun a b => decide (b.score ≤ a.score)) := List.mem_of_mem_take hr
  have h2 := ((List.mergeSort_perm _ _).mem_iff).mp h1
  obtain ⟨e, he, hre⟩ := List.mem_map.mp h2
  rw [← hre]
  exact List.mem_map_of_mem Prod.fst he

theorem storeSearch_ids_nodup (st : Store) (q : List ℚ) (k : Nat)
    (h : (st.map Prod.fst).Nodup) :
    ((storeSearch st q k).map SearchResult.id).Nodup := by
  unfold storeSearch
  have hids : ((st.map (fun e => SearchResult.mk e.1 (dot q e.2.1) e.2.2)).map
      SearchResult.id).Nodup := by
    rw [List.map_map]
    exact h
  have hperm : List.Perm
      (((st.map (fun e => SearchResult.mk e.1 (dot q e.2.1) e.2.2)).mergeSort
        (fun a b => decide (b.score ≤ a.score))).map SearchResult.id)
      ((st.map (fun e => SearchResult.mk e.1 (dot q e.2.1) e.2.2)).map SearchResult.id) :=
    (List.mergeSort_perm _ _).map SearchResult.id
  exact ((List.take_sublist _ _).map SearchResult.id).nodup (hperm.nodup_iff.mpr hids)

theorem denseOf_ids_nodup (st : QueryState) (queryText : String) (topK : Nat) (minScore : ℚ)
    (h : (st.store.map Prod.fst).Nodup) :
    ((denseOf st queryText topK minScore).map SearchResult.id).Nodup := by
  unfold denseOf
  exact ((List.filter_sublist _).map SearchResult.id).nodup
    (storeSearch_ids_nodup st.store (st.embed queryText) (topK * 2) h)

theorem denseOf_ids_sub (st : QueryState) (queryText : String) (topK : Nat) (minScore : ℚ) :
    ∀ r ∈ denseOf st queryText topK minScore, r.id ∈ st.store.map Prod.fst := by
  intro r hr
  unfold denseOf at hr
  exact storeSearch_ids_sub st.store (st.embed queryText) (topK * 2) r
    (List.mem_filter.mp hr).1

theorem fuseResults_ids_eq (cfg : QueryConfig) (st : Store) (vres : List SearchResult)
    (bres : List (ChunkId × ℚ)) (topK : Nat) :
    (fuseResults cfg st vres bres topK).map SearchResult.id
      = (((vres.map SearchResult.id ++ bres.map Prod.fst).dedup).mergeSort
          (fun a b => decide (rrfOf cfg vres bres b ≤ rrfOf cfg vres bres a))).take topK := by
  unfold fuseResults
  rw [List.map_map]
  exact List.map_id _

theorem fuseResults_ids_nodup (cfg : QueryConfig) (st : Store) (vres : List SearchResult)
    (bres : List (ChunkId × ℚ)) (topK : Nat) :
    ((fuseResults cfg st vres bres topK).map SearchResult.id).Nodup := by
  rw [fuseResults_ids_eq]
  exact (List.take_sublist _ _).nodup
    ((List.mergeSort_perm _ _).nodup_iff.mpr (List.nodup_dedup _))

theorem hybridOf_ids_nodup (st : QueryState) (queryText : String) (topK : Nat) (minScore : ℚ)
    (h : (st.store.map Prod.fst).Nodup) :
    ((hybridOf st queryText topK minScore).map SearchResult.id).Nodup := by
  unfold hybridOf
  split
  · split
    · simp
    · exact fuseResults_ids_nodup _ _ _ _ _
  · exact denseOf_ids_nodup st queryText topK minScore h

theorem hybridOf_ids_sub (st : QueryState) (queryText : String) (topK : Nat) (minScore : ℚ) :
    ∀ r ∈ hybridOf st queryText topK minScore, r.id ∈ st.store.map Prod.fst := by
  intro r hr
  unfold hybridOf at hr
  split at hr
  · split at hr
    · simp at hr
    · obtain ⟨d, hd, hdr, -⟩ := fuse_mem_score st.cfg st.store _ _ _
        (by
          intro p hp
          unfold bm25FilteredOf at hp
          simpa using (List.mem_filter.mp hp).2) r hr
      rw [← hdr]
      exact denseOf_ids_sub st queryText topK minScore d hd
  · exact denseOf_ids_sub st queryText topK minScore r hr

theorem query_direct (st : QueryState) (queryText : String) (topK : Nat) (expand : Bool)
    (expandDepth : Option Nat) (typeFilter : Option String) (minScore : ℚ) :
    (query st queryText topK expand expandDepth typeFilter minScore).direct
      = (finalResultsOf st queryText topK typeFilter minScore).map mkDirect := rfl

theorem query_related (st : QueryState) (queryText : String) (topK : Nat) (expand : Bool)
    (expandDepth : Option Nat) (typeFilter : Option String) (minScore : ℚ) :
    (query st queryText topK expand expandDepth typeFilter minScore).related
      = relatedOf st (finalResultsOf st queryText topK typeFilter minScore)
          expand expandDepth typeFilter := rfl

theorem dedupStep_keys (best : List (String × SearchResult)) (r : SearchResult)
    (h1 : (best.map Prod.fst).Nodup) (h2 : ∀ kv ∈ best, kv.2.id.path = kv.1) :
    ((dedupStep best r).map Prod.fst).Nodup ∧ ∀ kv ∈ dedupStep best r, kv.2.id.path = kv.1 := by
  unfold dedupStep
  split
  · next hf =>
    constructor
    · rw [List.map_append, List.nodup_append]
      refine ⟨h1, by simp, ?_⟩
      intro a ha
      rw [List.find?_eq_none] at hf
      obtain ⟨kv, hkv, hkva⟩ := List.mem_map.mp ha
      have hne := hf kv hkv
      simp only [decide_eq_true_eq] at hne
      simp only [List.map_cons, List.map_nil, List.mem_cons, List.not_mem_nil, or_false]
      rw [← hkva]
      exact hne
    · intro kv hkv
      rcases List.mem_append.mp hkv with h | h
      · exact h2 kv h
      · have hkveq : kv = (r.id.path, annotateResult r) := by simpa using h
        rw [hkveq]
        simp [annotateResult_id]
  · next kv0 hf =>
    split
    · have hkeys : (best.map
          (fun kv2 => if kv2.1 = r.id.path then (r.id.path, annotateResult r) else kv2)).map
            Prod.fst = best.map Prod.fst := by
        rw [List.map_map]
        apply List.map_congr_left
        intro kv2 _
        by_cases h : kv2.1 = r.id.path
        · simp [h]
        · simp [h]
      constructor
      · rw [hkeys]; exact h1
      · intro kv hkv
        obtain ⟨kv2, hkv2, hkveq⟩ := List.mem_map.mp hkv
        by_cases h : kv2.1 = r.id.path
        · rw [← hkveq]
          simp [h, annotateResult_id]
        · rw [← hkveq]
          simp only [h, if_false]
          exact h2 kv2 hkv2
    · exact ⟨h1, h2⟩

theorem dedupFold_keys (l : List SearchResult) :
    ∀ best : List (String × SearchResult),
      (best.map Prod.fst).Nodup → (∀ kv ∈ best, kv.2.id.path = kv.1) →
      ((l.foldl dedupStep best).map Prod.fst).Nodup
        ∧ ∀ kv ∈ l.foldl dedupStep best, kv.2.id.path = kv.1 := by
  induction l with
  | nil => intro best h1 h2; exact ⟨h1, h2⟩
  | cons r l ih =>
    intro best h1 h2
    rw [List.foldl_cons]
    obtain ⟨h1', h2'⟩ := dedupStep_keys best r h1 h2
    exact ih (dedupStep best r) h1' h2'

theorem dedupChunks_paths_nodup (cfg : QueryConfig) (results : List SearchResult)
    (hc : cfg.chunkingEnabled = true) :
    ((dedupChunks cfg results).map (fun r => r.id.path)).Nodup := by
  unfold dedupChunks
  rw [if_pos hc]
  obtain ⟨h1, h2⟩ := dedupFold_keys results [] (by simp) (by simp)
  have heq : ((results.foldl dedupStep []).map Prod.snd).map (fun r => r.id.path)
      = (results.foldl dedupStep []).map Prod.fst := by
    rw [List.map_map]
    exact List.map_congr_left (fun kv hkv => h2 kv hkv)
  rw [heq]
  exact h1

theorem finalResults_paths_nodup (st : QueryState) (queryText : String) (topK : Nat)
    (typeFilter : Option String) (minScore : ℚ) (hWF : storeWF st) :
    ((finalResultsOf st queryText topK typeFilter minScore).map
      (fun r => r.id.path)).Nodup := by
  obtain ⟨hnd, hch⟩ := hWF
  have hbase : ((dedupChunks st.cfg (hybridOf st queryText topK minScore)).map
      (fun r => r.id.path)).Nodup := by
    cases hc : st.cfg.chunkingEnabled with
    | true => exact dedupChunks_paths_nodup _ _ hc
    | false =>
      unfold dedupChunks
      rw [if_neg (by simp [hc])]
      have hidnd := hybridOf_ids_nodup st queryText topK minScore hnd
      have hwhole : ∀ r ∈ hybridOf st queryText topK minScore, r.id.chunk = none := by
        intro r hr
        rcases hch with h | h
        · rw [hc] at h; cases h
        · exact h r.id (hybridOf_ids_sub st queryText topK minScore r hr)
      rw [show (fun r : SearchResult => r.id.path) = (ChunkId.path ∘ SearchResult.id)
        from rfl, ← List.map_map]
      apply List.Nodup.map_on ?_ hidnd
      intro x hx y hy hxy
      obtain ⟨rx, hrx, hrxid⟩ := List.mem_map.mp hx
      obtain ⟨ry, hry, hryid⟩ := List.mem_map.mp hy
      have hxn : x.chunk = none := hrxid ▸ hwhole rx hrx
      have hyn : y.chunk = none := hryid ▸ hwhole ry hry
      cases x
      cases y
      simp_all
  have h2 : ((typeFilterFn typeFilter
      (dedupChunks st.cfg (hybridOf st queryText topK minScore))).map
      (fun r => r.id.path)).Nodup := by
    unfold typeFilterFn
    cases typeFilter with
    | none => exact hbase
    | some t => exact ((List.filter_sublist _).map _).nodup hbase
  unfold finalResultsOf
  exact ((List.take_sublist _ _).map _).nodup
    (((List.mergeSort_perm _ _).map _).nodup_iff.mpr h2)

theorem mkRelated_path (p : ChunkId × ExpandInfo) : (mkRelated p).path = p.1.path := rfl

theorem relatedFold_inv (seeds : List ChunkId) (directParents : List String)
    (typeFilter : Option String) (l : List (ChunkId × ExpandInfo)) :
    ∀ acc : List String × List RelatedEntry,
      (acc.2.map RelatedEntry.path).Nodup →
      (∀ e ∈ acc.2, e.path ∉ directParents) →
      (∀ e ∈ acc.2, e.path ∈ acc.1) →
      ((l.foldl (relatedStep seeds directParents typeFilter) acc).2.map
          RelatedEntry.path).Nodup
        ∧ ∀ e ∈ (l.foldl (relatedStep seeds directParents typeFilter) acc).2,
            e.path ∉ directParents := by
  induction l with
  | nil => intro acc h1 h2 _; exact ⟨h1, h2⟩
  | cons p l ih =>
    intro acc h1 h2 h3
    rw [List.foldl_cons]
    by_cases hseed : p.1 ∈ seeds
    · rw [show relatedStep seeds directParents typeFilter acc p = acc from by
        unfold relatedStep; rw [if_pos hseed]]
      exact ih acc h1 h2 h3
    · by_cases hpar : p.1.path ∈ directParents ∨ p.1.path ∈ acc.1
      · rw [show relatedStep seeds directParents typeFilter acc p = acc from by
          unfold relatedStep; rw [if_neg hseed, if_pos hpar]]
        exact ih acc h1 h2 h3
      · push_neg at hpar
        have hstep : relatedStep seeds directParents typeFilter acc p
              = (acc.1 ++ [p.1.path], acc.2 ++ [mkRelated p])
            ∨ relatedStep seeds directParents typeFilter acc p
              = (acc.1 ++ [p.1.path], acc.2) := by
          unfold relatedStep
          rw [if_neg hseed, if_neg (by tauto)]
          cases typeFilter with
          | none => exact Or.inl rfl
          | some t =>
            by_cases ht : p.2.ftype ≠ t
            · refine Or.inr ?_
              show (if p.2.ftype ≠ t then (acc.1 ++ [p.1.path], acc.2)
                  else (acc.1 ++ [p.1.path], acc.2 ++ [mkRelated p])) = _
              rw [if_pos ht]
            · refine Or.inl ?_
              show (if p.2.ftype ≠ t then (acc.1 ++ [p.1.path], acc.2)
                  else (acc.1 ++ [p.1.path], acc.2 ++ [mkRelated p])) = _
              rw [if_neg ht]
        rcases hstep with hstep | hstep
        · rw [hstep]
          apply ih
          · rw [List.map_append, List.nodup_append]
            refine ⟨h1, by simp, ?_⟩
            intro a ha
            obtain ⟨e, he, hea⟩ := List.mem_map.mp ha
            simp only [List.map_cons, List.map_nil, List.mem_cons, List.not_mem_nil,
              or_false, mkRelated_path]
            rw [← hea]
            intro hcontra
            exact hpar.2 (hcontra ▸ h3 e he)
          · intro e he
            rcases List.mem_append.mp he with h | h
            · exact h2 e h
            · have heq : e = mkRelated p := by simpa using h
              rw [heq, mkRelated_path]
              exact hpar.1
          · intro e he
            rcases List.mem_append.mp he with h | h
            · exact List.mem_append_left _ (h3 e h)
            · have heq : e = mkRelated p := by simpa using h
              rw [heq, mkRelated_path]
              exact List.mem_append_right _ (by simp)
        · rw [hstep]
          apply ih
          · exact h1
          · exact h2
          · intro e he
            exact List.mem_append_left _ (h3 e he)

theorem relatedOf_paths (st : QueryState) (finalResults : List SearchResult) (expand : Bool)
    (expandDepth : Option Nat) (typeFilter : Option String) :
    ((relatedOf st finalResults expand expandDepth typeFilter).map RelatedEntry.path).Nodup
      ∧ ∀ e ∈ relatedOf st finalResults expand expandDepth typeFilter,
          e.path ∉ (finalResults.map SearchResult.id).map ChunkId.path := by
  unfold relatedOf
  split
  · obtain ⟨h1, h2⟩ := relatedFold_inv (finalResults.map SearchResult.id)
      ((finalResults.map SearchResult.id).map ChunkId.path) typeFilter
      (st.graphExpand (finalResults.map SearchResult.id) st.cfg.expandThreshold
        (effectiveDepth st.cfg expandDepth))
      ([], []) (by simp) (by simp) (by simp)
    constructor
    · exact ((List.mergeSort_perm _ _).map _).nodup_iff.mpr h1
    · intro e he
      exact h2 e ((List.mergeSort_perm _ _).mem_iff.mp he)
  · simp

/-- C5: in every query result — over any store whose operations kept one
entry per id and whose ids are chunk ids only when chunking is enabled — no
two direct entries share a parent-file path, no related entry's path equals
a direct entry's path, and no two related entries share a path. -/
theorem c5_result_paths_deduplicated (st : QueryState) (queryText : String) (topK : Nat)
    (expand : Bool) (expandDepth : Option Nat) (typeFilter : Option String) (minScore : ℚ)
    (hWF : storeWF st) :
    (((query st queryText topK expand expandDepth typeFilter minScore).direct.map
        DirectEntry.path).Nodup)
    ∧ (∀ r ∈ (query st queryText topK expand expandDepth typeFilter minScore).related,
        ∀ d ∈ (query st queryText topK expand expandDepth typeFilter minScore).direct,
          r.path ≠ d.path)
    ∧ (((query st queryText topK expand expandDepth typeFilter minScore).related.map
        RelatedEntry.path).Nodup) := by
  have hdirpaths : (query st queryText topK expand expandDepth typeFilter minScore).direct.map
      DirectEntry.path
        = ((finalResultsOf st queryText topK typeFilter minScore).map
            SearchResult.id).map ChunkId.path := by
    rw [query_direct, List.map_map, List.map_map]
    rfl
  obtain ⟨hrel1, hrel2⟩ := relatedOf_paths st
    (finalResultsOf st queryText topK typeFilter minScore) expand expandDepth typeFilter
  refine ⟨?_, ?_, ?_⟩
  · rw [hdirpaths, List.map_map]
    exact finalResults_paths_nodup st queryText topK typeFilter minScore hWF
  · intro r hr d hd
    intro hrd
    rw [query_related] at hr
    apply hrel2 r hr
    rw [← hdirpaths, hrd]
    exact List.mem_map_of_mem DirectEntry.path hd
  · rw [query_related]
    exact hrel1

/-- Witness for C5 at `fxQState` (well-formed: one entry per id, whole-file
ids with chunking disabled): the direct paths of a concrete query are
pairwise distinct. -/
theorem c5_result_paths_deduplicated_witness :
    ((query fxQState "q" 10 true none none (1/2)).direct.map DirectEntry.path).Nodup :=
  (c5_result_paths_deduplicated fxQState "q" 10 true none none (1/2)
    (by constructor
        · with_unfolding_all decide
        · right; with_unfolding_all decide)).1

/-! ### C7 helper lemmas -/

theorem sumSq_nonneg (v : List ℚ) : 0 ≤ sumSq v := by
  unfold sumSq dot
  induction v with
  | nil => simp
  | cons a v ih =>
    rw [List.zipWith_cons_cons, List.sum_cons]
    nlinarith [sq_nonneg a]

theorem two_dot_le (v w : List ℚ) : 2 * dot v w ≤ sumSq v + sumSq w := by
  induction v generalizing w with
  | nil =>
    unfold dot
    simp
    nlinarith [sumSq_nonneg ([] : List ℚ), sumSq_nonneg w]
  | cons a v ih =>
    cases w with
    | nil =>
      unfold dot
      simp
      nlinarith [sumSq_nonneg (a :: v), sumSq_nonneg ([] : List ℚ)]
    | cons b w =>
      have hd : dot (a :: v) (b :: w) = a * b + dot v w := by
        unfold dot
        rw [List.zipWith_cons_cons, List.sum_cons]
      have hsv : sumSq (a :: v) = a * a + sumSq v := by
        unfold sumSq dot
        rw [List.zipWith_cons_cons, List.sum_cons]
      have hsw : sumSq (b :: w) = b * b + sumSq w := by
        unfold sumSq dot
        rw [List.zipWith_cons_cons, List.sum_cons]
      rw [hd, hsv, hsw]
      nlinarith [sq_nonneg (a - b), ih w]

theorem dot_le_one (q v : List ℚ) (hq : sumSq q = 1) (hv : sumSq v = 1) : dot q v ≤ 1 := by
  have h := two_dot_le q v
  rw [hq, hv] at h
  linarith

theorem storeSearch_score_of_mem (st : Store) (q : List ℚ) (k : Nat) :
    ∀ r ∈ storeSearch st q k, ∃ e ∈ st, r.score = dot q e.2.1 := by
  intro r hr
  unfold storeSearch at hr
  have h1 := (List.mergeSort_perm _ _).mem_iff.mp (List.mem_of_mem_take hr)
  obtain ⟨e, he, hre⟩ := List.mem_map.mp h1
  exact ⟨e, he, by rw [← hre]⟩

theorem dedupFold_scores (Q : ℚ → Prop) (l : List SearchResult) :
    ∀ best : List (String × SearchResult),
      (∀ kv ∈ best, Q kv.2.score) → (∀ r ∈ l, Q r.score) →
      ∀ kv ∈ l.foldl dedupStep best, Q kv.2.score := by
  induction l with
  | nil => intro best hb _ kv hkv; exact hb kv hkv
  | cons r l ih =>
    intro best hb hl
    rw [List.foldl_cons]
    apply ih
    · intro kv hkv
      unfold dedupStep at hkv
      split at hkv
      · rcases List.mem_append.mp hkv with h | h
        · exact hb kv h
        · have heq : kv = (r.id.path, annotateResult r) := by simpa using h
          rw [heq]
          show Q (annotateResult r).score
          rw [annotateResult_score]
          exact hl r (List.mem_cons_self r l)
      · split at hkv
        · obtain ⟨kv2, hkv2, hkveq⟩ := List.mem_map.mp hkv
          by_cases h : kv2.1 = r.id.path
          · rw [← hkveq]
            simp only [h, if_true]
            show Q (annotateResult r).score
            rw [annotateResult_score]
            exact hl r (List.mem_cons_self r l)
          · rw [← hkveq]
            simp only [h, if_false]
            exact hb kv2 hkv2
        · exact hb kv hkv
    · intro r' hr'
      exact hl r' (List.mem_cons_of_mem _ hr')

theorem dedupChunks_scores (cfg : QueryConfig) (results : List SearchResult) (Q : ℚ → Prop)
    (h : ∀ r ∈ results, Q r.score) :
    ∀ r' ∈ dedupChunks cfg results, Q r'.score := by
  intro r' hr'
  unfold dedupChunks at hr'
  split at hr'
  · obtain ⟨kv, hkv, hksnd⟩ := List.mem_map.mp hr'
    rw [← hksnd]
    exact dedupFold_scores Q results [] (by simp) h kv hkv
  · exact h r' hr'

theorem finalResults_scores_le_one (st : QueryState) (queryText : String) (topK : Nat)
    (typeFilter : Option String) (minScore : ℚ)
    (hU : ∀ e ∈ st.store, sumSq e.2.1 = 1) (hq : sumSq (st.embed queryText) = 1) :
    ∀ r ∈ finalResultsOf st queryText topK typeFilter minScore, r.score ≤ 1 := by
  have hsearch : ∀ r ∈ storeSearch st.store (st.embed queryText) (topK * 2), r.score ≤ 1 := by
    intro r hr
    obtain ⟨e, he, hre⟩ := storeSearch_score_of_mem st.store (st.embed queryText) (topK * 2) r hr
    rw [hre]
    exact dot_le_one (st.embed queryText) e.2.1 hq (hU e he)
  have hdense : ∀ r ∈ denseOf st queryText topK minScore, r.score ≤ 1 := by
    intro r hr
    exact hsearch r (List.mem_filter.mp hr).1
  have hhyb : ∀ r ∈ hybridOf st queryText topK minScore, r.score ≤ 1 := by
    intro r hr
    unfold hybridOf at hr
    split at hr
    · split at hr
      · simp at hr
      · obtain ⟨d, hd, -, hds⟩ := fuse_mem_score st.cfg st.store _ _ _
          (by
            intro p hp
            unfold bm25FilteredOf at hp
            simpa using (List.mem_filter.mp hp).2) r hr
        rw [← hds]
        exact hdense d hd
    · exact hdense r hr
  have hdedup := dedupChunks_scores st.cfg (hybridOf st queryText topK minScore)
    (fun s => s ≤ 1) hhyb
  have htf : ∀ r ∈ typeFilterFn typeFilter
      (dedupChunks st.cfg (hybridOf st queryText topK minScore)), r.score ≤ 1 := by
    intro r hr
    unfold typeFilterFn at hr
    cases typeFilter with
    | none => exact hdedup r hr
    | some t => exact hdedup r (List.mem_filter.mp hr).1
  intro r hr
  unfold finalResultsOf at hr
  exact htf r ((List.mergeSort_perm _ _).mem_iff.mp (List.mem_of_mem_take hr))

theorem finalResults_sorted (st : QueryState) (queryText : String) (topK : Nat)
    (typeFilter : Option String) (minScore : ℚ) :
    (finalResultsOf st queryText topK typeFilter minScore).Pairwise
      (fun a b => b.score ≤ a.score) := by
  unfold finalResultsOf
  have hsorted := @List.sorted_mergeSort SearchResult
    (fun a b : SearchResult => decide (b.score ≤ a.score))
    (by
      intro a b c hab hbc
      simp only [decide_eq_true_eq] at hab hbc ⊢
      exact le_trans hbc hab)
    (by
      intro a b
      simpa using le_total b.score a.score)
    (typeFilterFn typeFilter (dedupChunks st.cfg (hybridOf st queryText topK minScore)))
  have hpair := List.Pairwise.sublist (List.take_sublist topK _) hsorted
  exact hpair.imp (fun h => by simpa using h)

theorem round4_mono {x y : ℚ} (h : x ≤ y) : round4 x ≤ round4 y := by
  unfold round4
  have hfloor : ⌊x * 10000 + 1/2⌋ ≤ ⌊y * 10000 + 1/2⌋ :=
    Int.floor_mono (by linarith)
  have hcast : ((⌊x * 10000 + 1/2⌋ : ℤ) : ℚ) ≤ ((⌊y * 10000 + 1/2⌋ : ℤ) : ℚ) := by
    exact_mod_cast hfloor
  linarith

theorem floor_half_eq_zero : ⌊(1:ℚ)/2⌋ = 0 := by
  rw [Int.floor_eq_zero_iff, Set.mem_Ico]
  constructor <;> norm_num

theorem round4_zero : round4 0 = 0 := by
  unfold round4
  rw [show (0:ℚ) * 10000 + 1/2 = 1/2 by norm_num, floor_half_eq_zero]
  norm_num

theorem round4_one : round4 1 = 1 := by
  unfold round4
  rw [show (1:ℚ) * 10000 + 1/2 = (1:ℚ)/2 + (10000 : ℤ) by push_cast; ring]
  rw [Int.floor_add_int, floor_half_eq_zero]
  norm_num

theorem rescaleScore_nonneg (x : ℚ) : 0 ≤ rescaleScore x := by
  unfold rescaleScore
  split
  · exact le_refl 0
  · next h =>
    push_neg at h
    apply div_nonneg <;> linarith

theorem rescaleScore_le_one {x : ℚ} (h : x ≤ 1) : rescaleScore x ≤ 1 := by
  unfold rescaleScore
  split
  · norm_num
  · next h2 =>
    push_neg at h2
    rw [div_le_one (by norm_num)]
    linarith

theorem rescaleScore_mono {x y : ℚ} (h : x ≤ y) : rescaleScore x ≤ rescaleScore y := by
  unfold rescaleScore
  split
  · split
    · exact le_refl 0
    · next h2 =>
      push_neg at h2
      apply div_nonneg <;> linarith
  · next h1 =>
    push_neg at h1
    rw [if_neg (by push_neg; linarith)]
    have hden : (0:ℚ) < 1 - 1/2 := by norm_num
    rw [div_le_div_iff₀ hden hden]
    nlinarith

/-- C7: in every query result over unit-norm stored vectors and a unit-norm
query embedding (the spec's unit-norm invariant and embedder contract),
every direct entry's score lies in [0, 1], and the direct list is monotone
non-increasing in score from first to last entry. -/
theorem c7_direct_scores_in_range_and_sorted (st : QueryState) (queryText : String)
    (topK : Nat) (expand : Bool) (expandDepth : Option Nat) (typeFilter : Option String)
    (minScore : ℚ) (hU : ∀ e ∈ st.store, sumSq e.2.1 = 1)
    (hq : sumSq (st.embed queryText) = 1) :
    (∀ e ∈ (query st queryText topK expand expandDepth typeFilter minScore).direct,
        0 ≤ e.score ∧ e.score ≤ 1)
    ∧ ((query st queryText topK expand expandDepth typeFilter minScore).direct.map
        DirectEntry.score).Pairwise (fun a b => b ≤ a) := by
  have hle1 := finalResults_scores_le_one st queryText topK typeFilter minScore hU hq
  constructor
  · intro e he
    rw [query_direct] at he
    obtain ⟨r, hr, hre⟩ := List.mem_map.mp he
    have hescore : e.score = round4 (rescaleScore r.score) := by rw [← hre]; rfl
    constructor
    · rw [hescore]
      calc (0:ℚ) = round4 0 := round4_zero.symm
        _ ≤ round4 (rescaleScore r.score) := round4_mono (rescaleScore_nonneg r.score)
    · rw [hescore]
      calc round4 (rescaleScore r.score) ≤ round4 1 :=
            round4_mono (rescaleScore_le_one (hle1 r hr))
        _ = 1 := round4_one
  · rw [query_direct, List.map_map]
    have hpair := finalResults_sorted st queryText topK typeFilter minScore
    exact hpair.map _ (fun a b h =>
      round4_mono (rescaleScore_mono h))

/-- Witness for C7 at `fxQState` (all stored vectors and the query embedding
unit-norm): the direct score list of a concrete query is monotone
non-increasing. -/
theorem c7_direct_scores_in_range_and_sorted_witness :
    ((query fxQState "q" 10 true none none (1/2)).direct.map DirectEntry.score).Pairwise
      (fun a b => b ≤ a) :=
  (c7_direct_scores_in_range_and_sorted fxQState "q" 10 true none none (1/2)
    (by with_unfolding_all decide) (by with_unfolding_all decide)).2

/-! ### C3 helper lemmas: store operations -/

theorem storeGet_filter_keep (st : Store) (p : ChunkId × (List ℚ × Meta) → Bool)
    (id : ChunkId) (h : ∀ e ∈ st, e.1 = id → p e = true) :
    storeGet (st.filter p) id = storeGet st id := by
  induction st with
  | nil => rfl
  | cons e st ih =>
    have ih' := ih (fun e' he' heq => h e' (List.mem_cons_of_mem _ he') heq)
    by_cases heq : e.1 = id
    · rw [List.filter_cons, if_pos (h e (List.mem_cons_self e st) heq)]
      unfold storeGet
      rw [List.find?_cons_of_pos _ (by simpa using heq),
        List.find?_cons_of_pos _ (by simpa using heq)]
    · cases hp : p e with
      | true =>
        rw [List.filter_cons, if_pos hp]
        unfold storeGet
        rw [List.find?_cons_of_neg _ (by simpa using heq),
          List.find?_cons_of_neg _ (by simpa using heq)]
        exact ih'
      | false =>
        rw [List.filter_cons, if_neg (by simp [hp])]
        unfold storeGet
        rw [List.find?_cons_of_neg _ (by simpa using heq)]
        exact ih'

theorem storeGet_filter_drop (st : Store) (p : ChunkId × (List ℚ × Meta) → Bool)
    (id : ChunkId) (h : ∀ e ∈ st, e.1 = id → p e = false) :
    storeGet (st.filter p) id = none := by
  induction st with
  | nil => rfl
  | cons e st ih =>
    have ih' := ih (fun e' he' heq => h e' (List.mem_cons_of_mem _ he') heq)
    by_cases heq : e.1 = id
    · rw [List.filter_cons, if_neg (by simp [h e (List.mem_cons_self e st) heq])]
      exact ih'
    · cases hp : p e with
      | true =>
        rw [List.filter_cons, if_pos hp]
        unfold storeGet
        rw [List.find?_cons_of_neg _ (by simpa using heq)]
        exact ih'
      | false =>
        rw [List.filter_cons, if_neg (by simp [hp])]
        exact ih'

theorem find?_map_replace (st : Store) (id : ChunkId) (vm : List ℚ × Meta) :
    (st.map (fun e => if e.1 = id then (id, vm) else e)).find? (fun e => decide (e.1 = id))
      = (st.find? (fun e => decide (e.1 = id))).map (fun _ => (id, vm)) := by
  induction st with
  | nil => rfl
  | cons e st ih =>
    by_cases heq : e.1 = id
    · rw [List.map_cons, if_pos heq]
      rw [List.find?_cons_of_pos _ (by simp), List.find?_cons_of_pos _ (by simpa using heq)]
      rfl
    · rw [List.map_cons, if_neg heq]
      rw [List.find?_cons_of_neg _ (by simpa using heq),
        List.find?_cons_of_neg _ (by simpa using heq)]
      exact ih

theorem storeGet_upsert_self (st : Store) (id : ChunkId) (v : List ℚ) (m : Meta) :
    storeGet (storeUpsert st id v m) id = some (v, m) := by
  unfold storeUpsert
  split
  · next hany =>
    unfold storeGet
    rw [find?_map_replace]
    have hs : (st.find? (fun e => decide (e.1 = id))).isSome := by
      rw [List.find?_isSome]
      exact List.any_eq_true.mp hany
    obtain ⟨e0, he0⟩ := Option.isSome_iff_exists.mp hs
    rw [he0]
    rfl
  · next hany =>
    unfold storeGet
    rw [List.find?_append]
    have hnone : st.find? (fun e => decide (e.1 = id)) = none := by
      rw [List.find?_eq_none]
      intro e he
      simp only [decide_eq_true_eq]
      intro heq
      exact absurd (List.any_eq_true.mpr ⟨e, he, by simp [heq]⟩) hany
    rw [hnone]
    simp [List.find?]

theorem find?_map_replace_other (st : Store) (id id' : ChunkId) (vm : List ℚ × Meta)
    (h : id' ≠ id) :
    (st.map (fun e => if e.1 = id then (id, vm) else e)).find? (fun e => decide (e.1 = id'))
      = st.find? (fun e => decide (e.1 = id')) := by
  induction st with
  | nil => rfl
  | cons e st ih =>
    by_cases heq : e.1 = id
    · rw [List.map_cons, if_pos heq]
      rw [List.find?_cons_of_neg _ (by simpa using Ne.symm h),
        List.find?_cons_of_neg _ (by
          simp only [decide_eq_true_eq]
          rw [heq]
          exact fun hc => h hc.symm)]
      exact ih
    · rw [List.map_cons, if_neg heq]
      by_cases heq' : e.1 = id'
      · rw [List.find?_cons_of_pos _ (by simpa using heq'),
          List.find?_cons_of_pos _ (by simpa using heq')]
      · rw [List.find?_cons_of_neg _ (by simpa using heq'),
          List.find?_cons_of_neg _ (by simpa using heq')]
        exact ih

theorem storeGet_upsert_other (st : Store) (id id' : ChunkId) (v : List ℚ) (m : Meta)
    (h : id' ≠ id) :
    storeGet (storeUpsert st id v m) id' = storeGet st id' := by
  unfold storeUpsert
  split
  · unfold storeGet
    rw [find?_map_replace_other st id id' (v, m) h]
  · unfold storeGet
    rw [List.find?_append]
    have htail : ([(id, (v, m))] : Store).find? (fun e => decide (e.1 = id')) = none := by
      simp [List.find?, Ne.symm h]
    rw [htail]
    cases st.find? (fun e => decide (e.1 = id')) <;> rfl

theorem mem_storeUpsert (st : Store) (id : ChunkId) (v : List ℚ) (m : Meta) :
    ∀ e ∈ storeUpsert st id v m, e.1 = id ∨ e ∈ st := by
  intro e he
  unfold storeUpsert at he
  split at he
  · obtain ⟨e0, he0, heq⟩ := List.mem_map.mp he
    by_cases h : e0.1 = id
    · left
      rw [← heq]
      simp [h]
    · right
      rw [← heq]
      simp only [h, if_false]
      exact he0
  · rcases List.mem_append.mp he with h | h
    · right; exact h
    · left
      have heq : e = (id, (v, m)) := by simpa using h
      rw [heq]

/-- The store component of the upsert loop, as a fold over the store alone. -/
def storeFoldOf (env : Env) (st : Store) (items : List EmbedItem) : Store :=
  items.foldl (fun s it => storeUpsert s it.id (env.embed it.text) (metaOfItem env it)) st

theorem applyUpserts_eq (env : Env) (items : List EmbedItem) :
    ∀ (st : Store) (n : Nat),
      items.foldl
          (fun acc it =>
            (storeUpsert acc.1 it.id (env.embed it.text) (metaOfItem env it), acc.2 + 1))
          (st, n)
        = (storeFoldOf env st items, n + items.length) := by
  induction items with
  | nil => intro st n; simp [storeFoldOf]
  | cons it its ih =>
    intro st n
    rw [List.foldl_cons]
    rw [ih]
    unfold storeFoldOf
    rw [List.foldl_cons]
    simp only [List.length_cons]
    rw [show n + 1 + its.length = n + (its.length + 1) by omega]

theorem storeFoldOf_get_notmem (env : Env) (items : List EmbedItem) :
    ∀ (st : Store) (id : ChunkId), (∀ it ∈ items, it.id ≠ id) →
      storeGet (storeFoldOf env st items) id = storeGet st id := by
  induction items with
  | nil => intro st id _; rfl
  | cons it its ih =>
    intro st id h
    unfold storeFoldOf
    rw [List.foldl_cons]
    have step := ih (storeUpsert st it.id (env.embed it.text) (metaOfItem env it)) id
      (fun it' hit' => h it' (List.mem_cons_of_mem _ hit'))
    unfold storeFoldOf at step
    rw [step]
    exact storeGet_upsert_other st it.id id _ _ (Ne.symm (h it (List.mem_cons_self it its)))

theorem storeFoldOf_get (env : Env) (items : List EmbedItem) :
    ∀ (st : Store) (id : ChunkId),
      storeGet (storeFoldOf env st items) id
        = match items.reverse.find? (fun it => decide (it.id = id)) with
          | some it => some (env.embed it.text, metaOfItem env it)
          | none => storeGet st id := by
  induction items with
  | nil => intro st id; rfl
  | cons it its ih =>
    intro st id
    unfold storeFoldOf
    rw [List.foldl_cons]
    have step := ih (storeUpsert st it.id (env.embed it.text) (metaOfItem env it)) id
    unfold storeFoldOf at step
    rw [step]
    rw [List.reverse_cons, List.find?_append]
    cases hf : its.reverse.find? (fun it => decide (it.id = id)) with
    | some it' => rfl
    | none =>
      by_cases heq : it.id = id
      · have htail : ([it] : List EmbedItem).find? (fun it => decide (it.id = id))
            = some it := by simp [List.find?, heq]
        rw [htail]
        show storeGet (storeUpsert st it.id (env.embed it.text) (metaOfItem env it)) id
          = some (env.embed it.text, metaOfItem env it)
        rw [← heq, storeGet_upsert_self]
      · have htail : ([it] : List EmbedItem).find? (fun it => decide (it.id = id))
            = none := by simp [List.find?, heq]
        rw [htail]
        show storeGet (storeUpsert st it.id (env.embed it.text) (metaOfItem env it)) id
          = storeGet st id
        exact storeGet_upsert_other st it.id id _ _ (fun hc => heq (hc ▸ rfl))

theorem mem_storeFoldOf (env : Env) (items : List EmbedItem) :
    ∀ (st : Store) (e : ChunkId × (List ℚ × Meta)), e ∈ storeFoldOf env st items →
      e ∈ st ∨ ∃ it ∈ items, e.1 = it.id := by
  induction items with
  | nil => intro st e he; exact Or.inl he
  | cons it its ih =>
    intro st e he
    unfold storeFoldOf at he
    rw [List.foldl_cons] at he
    have step := ih (storeUpsert st it.id (env.embed it.text) (metaOfItem env it)) e
      (by unfold storeFoldOf; exact he)
    rcases step with h | ⟨it', hit', heq⟩
    · rcases mem_storeUpsert st it.id _ _ e h with h2 | h2
      · exact Or.inr ⟨it, List.mem_cons_self it its, h2⟩
      · exact Or.inl h2
    · exact Or.inr ⟨it', List.mem_cons_of_mem _ hit', heq⟩

/-- The store after the per-file chunk cleanup of the item-building loop:
with chunking, all entries whose parent is one of the selected files are
deleted; without, the store is untouched. -/
def cleanStoreOf (cfg : IndexerConfig) (st : Store) (toIdx : List FileInfo) : Store :=
  if cfg.chunkingEnabled then
    st.filter (fun e => decide (e.1.path ∉ toIdx.map FileInfo.path))
  else st

theorem buildItems_eq (cfg : IndexerConfig) (toIdx : List FileInfo) :
    ∀ (st : Store) (acc : List EmbedItem),
      toIdx.foldl
          (fun acc f =>
            if cfg.chunkingEnabled then
              (acc.1.filter (fun e => decide (e.1.path ≠ f.path)), acc.2 ++ itemsFor cfg f)
            else (acc.1, acc.2 ++ itemsFor cfg f))
          (st, acc)
        = (cleanStoreOf cfg st toIdx, acc ++ toIdx.flatMap (itemsFor cfg)) := by
  induction toIdx with
  | nil =>
    intro st acc
    unfold cleanStoreOf
    by_cases hc : cfg.chunkingEnabled = true
    · rw [if_pos hc]
      rw [List.filter_eq_self.mpr (by intro e _; simp)]
      simp
    · rw [if_neg hc]
      simp
  | cons f toIdx ih =>
    intro st acc
    rw [List.foldl_cons]
    by_cases hc : cfg.chunkingEnabled = true
    · rw [if_pos hc, ih]
      unfold cleanStoreOf
      rw [if_pos hc, if_pos hc]
      have hstore : ((st, acc).1.filter (fun e => decide (e.1.path ≠ f.path))).filter
            (fun e => decide (e.1.path ∉ toIdx.map FileInfo.path))
          = st.filter (fun e => decide (e.1.path ∉ (f :: toIdx).map FileInfo.path)) := by
        rw [List.filter_filter]
        apply List.filter_congr
        intro e _
        by_cases h1 : e.1.path = f.path
        · simp [h1]
        · by_cases h2 : e.1.path ∈ toIdx.map FileInfo.path
          · simp [h1, h2]
          · simp [h1, h2]
      rw [hstore, List.flatMap_cons, List.append_assoc]
    · rw [if_neg hc, ih]
      unfold cleanStoreOf
      rw [if_neg hc, if_neg hc]
      rw [List.flatMap_cons, List.append_assoc]

theorem removeFold_nochange (cur : List String) (ids : List ChunkId)
    (h : ∀ id ∈ ids, id.path ∈ cur) :
    ∀ (st : Store) (n : Nat),
      ids.foldl
          (fun acc id => if id.path ∈ cur then acc else (storeDelete acc.1 id, acc.2 + 1))
          (st, n)
        = (st, n) := by
  induction ids with
  | nil => intro st n; rfl
  | cons id ids ih =>
    intro st n
    rw [List.foldl_cons, if_pos (h id (List.mem_cons_self id ids))]
    exact ih (fun id' hid' => h id' (List.mem_cons_of_mem _ hid')) st n

theorem removePass_nochange (st : Store) (cur : List String)
    (h : ∀ e ∈ st, e.1.path ∈ cur) : removePass st cur = (st, 0) := by
  unfold removePass
  apply removeFold_nochange
  intro id hid
  rw [List.mem_dedup] at hid
  obtain ⟨e, he, heq⟩ := List.mem_map.mp hid
  rw [← heq]
  exact h e he

theorem removeFold_store (cur : List String) (ids : List ChunkId) :
    ∀ (st : Store) (n : Nat),
      (ids.foldl
          (fun acc id => if id.path ∈ cur then acc else (storeDelete acc.1 id, acc.2 + 1))
          (st, n)).1
        = st.filter (fun e => decide (¬(e.1 ∈ ids ∧ e.1.path ∉ cur))) := by
  induction ids with
  | nil =>
    intro st n
    show st = st.filter (fun e => decide (¬(e.1 ∈ ([] : List ChunkId) ∧ e.1.path ∉ cur)))
    symm
    rw [List.filter_eq_self]
    intro e _
    simp
  | cons id ids ih =>
    intro st n
    rw [List.foldl_cons]
    by_cases h : id.path ∈ cur
    · rw [if_pos h, ih]
      apply List.filter_congr
      intro e _
      by_cases h1 : e.1 = id
      · simp [h1, h]
      · simp [h1, List.mem_cons]
    · rw [if_neg h, ih]
      show (storeDelete st id).filter _ = _
      unfold storeDelete
      rw [List.filter_filter]
      apply List.filter_congr
      intro e _
      by_cases h1 : e.1 = id
      · simp [h1, h]
      · simp [h1, List.mem_cons]

theorem removePass_store (st : Store) (cur : List String) :
    (removePass st cur).1 = st.filter (fun e => decide (e.1.path ∈ cur)) := by
  unfold removePass
  rw [removeFold_store]
  apply List.filter_congr
  intro e he
  have hmem : e.1 ∈ (st.map Prod.fst).dedup :=
    List.mem_dedup.mpr (List.mem_map_of_mem _ he)
  by_cases h : e.1.path ∈ cur <;> simp [hmem, h]

theorem insertFileDict_paths_nodup (acc : List FileInfo) (f : FileInfo)
    (h : (acc.map FileInfo.path).Nodup) :
    ((insertFileDict acc f).map FileInfo.path).Nodup := by
  unfold insertFileDict
  split
  · have heq : (acc.map (fun g => if g.path = f.path then f else g)).map FileInfo.path
        = acc.map FileInfo.path := by
      rw [List.map_map]
      apply List.map_congr_left
      intro g _
      by_cases hg : g.path = f.path
      · simp [hg]
      · simp [hg]
    rw [heq]
    exact h
  · next hany =>
    rw [List.map_append, List.nodup_append]
    refine ⟨h, by simp, ?_⟩
    intro a ha
    obtain ⟨g, hg, hga⟩ := List.mem_map.mp ha
    simp only [List.map_cons, List.map_nil, List.mem_cons, List.not_mem_nil, or_false]
    intro hc
    exact absurd (List.any_eq_true.mpr ⟨g, hg, by simp [hga ▸ hc]⟩) hany

theorem insertFileDict_mem (acc : List FileInfo) (f : FileInfo) :
    ∀ g ∈ insertFileDict acc f, g ∈ acc ∨ g = f := by
  intro g hg
  unfold insertFileDict at hg
  split at hg
  · obtain ⟨g0, hg0, heq⟩ := List.mem_map.mp hg
    by_cases h : g0.path = f.path
    · right
      rw [← heq]
      simp [h]
    · left
      rw [← heq]
      simp only [h, if_false]
      exact hg0
  · rcases List.mem_append.mp hg with h | h
    · exact Or.inl h
    · exact Or.inr (by simpa using h)

theorem allFilesOf_go (files : List FileInfo) :
    ∀ acc : List FileInfo,
      (acc.map FileInfo.path).Nodup →
      ((files.foldl insertFileDict acc).map FileInfo.path).Nodup
        ∧ ∀ g ∈ files.foldl insertFileDict acc, g ∈ acc ∨ g ∈ files := by
  induction files with
  | nil => intro acc h; exact ⟨h, fun g hg => Or.inl hg⟩
  | cons f fs ih =>
    intro acc h
    rw [List.foldl_cons]
    obtain ⟨h1, h2⟩ := ih (insertFileDict acc f) (insertFileDict_paths_nodup acc f h)
    refine ⟨h1, fun g hg => ?_⟩
    rcases h2 g hg with h' | h'
    · rcases insertFileDict_mem acc f g h' with h'' | h''
      · exact Or.inl h''
      · exact Or.inr (h'' ▸ List.mem_cons_self f fs)
    · exact Or.inr (List.mem_cons_of_mem _ h')

theorem allFilesOf_paths_nodup (files : List FileInfo) :
    ((allFilesOf files).map FileInfo.path).Nodup :=
  (allFilesOf_go files [] (by simp)).1

theorem allFilesOf_sub (files : List FileInfo) : ∀ g ∈ allFilesOf files, g ∈ files :=
  fun g hg => ((allFilesOf_go files [] (by simp)).2 g hg).resolve_left (by simp)

theorem windowsGo_succ_cons (m s n : Nat) (t : String) (ts : List String) :
    windowsGo m s (n + 1) (t :: ts)
      = (t :: ts).take m :: windowsGo m s n ((t :: ts).drop s) := rfl

theorem chunkText_has_chunk_zero (text : String) (m o : Nat) (h : text ≠ "") :
    ∃ c ∈ chunkText text m o, c.index = 0 := by
  unfold chunkText
  rw [if_neg h]
  split
  · exact ⟨⟨0, text, 0, text.length⟩, by simp, rfl⟩
  · next hlen =>
    push_neg at hlen
    cases htoks : tokensOf text with
    | nil =>
      rw [htoks] at hlen
      simp at hlen
    | cons t ts =>
      rw [List.length_cons, windowsGo_succ_cons]
      refine ⟨_, List.mem_map_of_mem _ (List.mem_cons_self (0, (t :: ts).take m) _), rfl⟩

theorem itemsFor_path (cfg : IndexerConfig) (g : FileInfo) :
    ∀ it ∈ itemsFor cfg g, it.id.path = g.path ∧ it.fi = g := by
  intro it hit
  unfold itemsFor at hit
  split at hit
  · obtain ⟨c, _, heq⟩ := List.mem_map.mp hit
    rw [← heq]
    exact ⟨rfl, rfl⟩
  · rw [List.mem_singleton] at hit
    rw [hit]
    exact ⟨rfl, rfl⟩

theorem itemsFor_chunk_some (cfg : IndexerConfig) (g : FileInfo)
    (hc : cfg.chunkingEnabled = true) :
    ∀ it ∈ itemsFor cfg g, it.id.chunk.isSome := by
  intro it hit
  unfold itemsFor at hit
  rw [if_pos hc] at hit
  obtain ⟨c, _, heq⟩ := List.mem_map.mp hit
  rw [← heq]
  rfl

theorem itemsFor_mem_chunk0 (cfg : IndexerConfig) (g : FileInfo)
    (hc : cfg.chunkingEnabled = true) (hne : g.content ≠ "") :
    ∃ it ∈ itemsFor cfg g, it.id = makeChunkId g.path 0 := by
  unfold itemsFor
  rw [if_pos hc]
  obtain ⟨c, hcmem, hc0⟩ :=
    chunkText_has_chunk_zero g.content cfg.maxTokens cfg.overlapTokens hne
  exact ⟨_, List.mem_map_of_mem _ hcmem, by simp [makeChunkId, hc0]⟩

theorem itemsFor_mem_whole (cfg : IndexerConfig) (g : FileInfo)
    (hc : cfg.chunkingEnabled = false) :
    ∃ it ∈ itemsFor cfg g, it.id = (⟨g.path, none⟩ : ChunkId) := by
  unfold itemsFor
  rw [if_neg (by simp [hc])]
  exact ⟨_, List.mem_cons_self _ _, rfl⟩

theorem metaOfItem_mtime (env : Env) (it : EmbedItem) :
    (metaOfItem env it).mtime = some it.fi.mtime := rfl

theorem needsReindex_congr (cfg : IndexerConfig) (env : Env) (st st' : Store) (f : FileInfo)
    (h1 : storeGet st ⟨f.path, none⟩ = storeGet st' ⟨f.path, none⟩)
    (h2 : storeGet st (makeChunkId f.path 0) = storeGet st' (makeChunkId f.path 0)) :
    needsReindex cfg env st f = needsReindex cfg env st' f := by
  unfold needsReindex
  rw [h1, h2]

theorem indexPass_store_eq (cfg : IndexerConfig) (env : Env) (files : List FileInfo)
    (st : IndexerState) (rebuild : Bool) :
    (indexPass cfg env files st rebuild).state.store
      = storeFoldOf env
          (cleanStoreOf cfg (remOf files st.store).1
            (selOf cfg env files st.store rebuild).1)
          ((selOf cfg env files st.store rebuild).1.flatMap (itemsFor cfg)) := by
  rw [indexPass_store]
  unfold upStage itemsStage
  unfold buildItems
  rw [buildItems_eq]
  unfold applyUpserts
  rw [applyUpserts_eq]
  rfl

/-- Core of C3's second-pass argument: after one `index()` pass whose scanned
files, when chunking is enabled, all have non-empty content, no current file
needs reindexing against the resulting store. -/
theorem run1_needsReindex_false (cfg : IndexerConfig) (env : Env) (files : List FileInfo)
    (store : Store) (rebuild : Bool)
    (hne : cfg.chunkingEnabled = true → ∀ f ∈ files, f.content ≠ "") :
    ∀ f ∈ allFilesOf files,
      needsReindex cfg env
        (storeFoldOf env
          (cleanStoreOf cfg (remOf files store).1
            (selOf cfg env files store rebuild).1)
          ((selOf cfg env files store rebuild).1.flatMap (itemsFor cfg))) f = false := by
  intro f hf
  have hnodup := allFilesOf_paths_nodup files
  have hinj := List.inj_on_of_nodup_map hnodup
  have htoIdx_sub : ∀ g ∈ (selOf cfg env files store rebuild).1, g ∈ allFilesOf files := by
    unfold selOf
    rw [selectPass_eq_filter]
    intro g hg
    exact (List.mem_filter.mp hg).1
  have hitems_path : ∀ it ∈ (selOf cfg env files store rebuild).1.flatMap (itemsFor cfg),
      ∃ g ∈ (selOf cfg env files store rebuild).1, it.id.path = g.path ∧ it.fi = g := by
    intro it hit
    obtain ⟨g, hg, hitg⟩ := List.mem_flatMap.mp hit
    obtain ⟨hp, hfi⟩ := itemsFor_path cfg g it hitg
    exact ⟨g, hg, hp, hfi⟩
  have hitems_f : ∀ it ∈ (selOf cfg env files store rebuild).1.flatMap (itemsFor cfg),
      it.id.path = f.path → it.fi = f := by
    intro it hit hp
    obtain ⟨g, hg, hgp, hfi⟩ := hitems_path it hit
    have hgf : g = f := hinj (htoIdx_sub g hg) hf (by rw [← hgp, hp])
    rw [hfi, hgf]
  by_cases hsel : f ∈ (selOf cfg env files store rebuild).1
  · -- the file was (re)indexed in the first pass
    by_cases hch : cfg.chunkingEnabled = true
    · have hcontent : f.content ≠ "" := hne hch f (allFilesOf_sub files f hf)
      obtain ⟨it0, hit0, hit0id⟩ := itemsFor_mem_chunk0 cfg f hch hcontent
      have hit0mem : it0 ∈ (selOf cfg env files store rebuild).1.flatMap (itemsFor cfg) :=
        List.mem_flatMap.mpr ⟨f, hsel, hit0⟩
      have hsome : (((selOf cfg env files store rebuild).1.flatMap
          (itemsFor cfg)).reverse.find?
            (fun it => decide (it.id = makeChunkId f.path 0))).isSome := by
        rw [List.find?_isSome]
        exact ⟨it0, List.mem_reverse.mpr hit0mem, by simp [hit0id]⟩
      obtain ⟨it, hfind⟩ := Option.isSome_iff_exists.mp hsome
      have hitid : it.id = makeChunkId f.path 0 := by simpa using List.find?_some hfind
      have hitmem : it ∈ (selOf cfg env files store rebuild).1.flatMap (itemsFor cfg) :=
        List.mem_reverse.mp (List.mem_of_find?_eq_some hfind)
      have hitfi : it.fi = f := hitems_f it hitmem (by rw [hitid]; rfl)
      have hgetfile : storeGet
          (storeFoldOf env
            (cleanStoreOf cfg (remOf files store).1 (selOf cfg env files store rebuild).1)
            ((selOf cfg env files store rebuild).1.flatMap (itemsFor cfg)))
          ⟨f.path, none⟩ = none := by
        rw [storeFoldOf_get]
        have hfnone : (((selOf cfg env files store rebuild).1.flatMap
            (itemsFor cfg)).reverse.find?
              (fun it => decide (it.id = (⟨f.path, none⟩ : ChunkId)))) = none := by
          rw [List.find?_eq_none]
          intro it' hit'
          simp only [decide_eq_true_eq]
          intro hid
          have hit'mem : it' ∈ (selOf cfg env files store rebuild).1.flatMap (itemsFor cfg) :=
            List.mem_reverse.mp hit'
          obtain ⟨g, hg, hitg⟩ := List.mem_flatMap.mp hit'mem
          have hcs := itemsFor_chunk_some cfg g hch it' hitg
          rw [hid] at hcs
          simp at hcs
        rw [hfnone]
        show storeGet (cleanStoreOf cfg (remOf files store).1
          (selOf cfg env files store rebuild).1) ⟨f.path, none⟩ = none
        unfold cleanStoreOf
        rw [if_pos hch]
        apply storeGet_filter_drop
        intro e _ heq
        have hmem : f.path ∈ (selOf cfg env files store rebuild).1.map FileInfo.path :=
          List.mem_map.mpr ⟨f, hsel, rfl⟩
        simp [heq, hmem]
      have hgetc0 : storeGet
          (storeFoldOf env
            (cleanStoreOf cfg (remOf files store).1 (selOf cfg env files store rebuild).1)
            ((selOf cfg env files store rebuild).1.flatMap (itemsFor cfg)))
          (makeChunkId f.path 0) = some (env.embed it.text, metaOfItem env it) := by
        rw [storeFoldOf_get, hfind]
      unfold needsReindex
      rw [hgetfile, if_pos hch, hgetc0]
      show (if some f.mtime = (metaOfItem env it).mtime then false
        else decide (some (env.hash f.content) ≠ (metaOfItem env it).contentHash)) = false
      rw [if_pos (by rw [metaOfItem_mtime, hitfi])]
    · -- whole-file mode
      obtain ⟨it0, hit0, hit0id⟩ := itemsFor_mem_whole cfg f (by
        cases hcv : cfg.chunkingEnabled
        · rfl
        · exact absurd hcv hch)
      have hit0mem : it0 ∈ (selOf cfg env files store rebuild).1.flatMap (itemsFor cfg) :=
        List.mem_flatMap.mpr ⟨f, hsel, hit0⟩
      have hsome : (((selOf cfg env files store rebuild).1.flatMap
          (itemsFor cfg)).reverse.find?
            (fun it => decide (it.id = (⟨f.path, none⟩ : ChunkId)))).isSome := by
        rw [List.find?_isSome]
        exact ⟨it0, List.mem_reverse.mpr hit0mem, by simp [hit0id]⟩
      obtain ⟨it, hfind⟩ := Option.isSome_iff_exists.mp hsome
      have hitid : it.id = (⟨f.path, none⟩ : ChunkId) := by simpa using List.find?_some hfind
      have hitmem : it ∈ (selOf cfg env files store rebuild).1.flatMap (itemsFor cfg) :=
        List.mem_reverse.mp (List.mem_of_find?_eq_some hfind)
      have hitfi : it.fi = f := hitems_f it hitmem (by rw [hitid])
      have hgetfile : storeGet
          (storeFoldOf env
            (cleanStoreOf cfg (remOf files store).1 (selOf cfg env files store rebuild).1)
            ((selOf cfg env files store rebuild).1.flatMap (itemsFor cfg)))
          ⟨f.path, none⟩ = some (env.embed it.text, metaOfItem env it) := by
        rw [storeFoldOf_get, hfind]
      unfold needsReindex
      rw [hgetfile]
      show (if some f.mtime = (metaOfItem env it).mtime then false
        else decide (some (env.hash f.content) ≠ (metaOfItem env it).contentHash)) = false
      rw [if_pos (by rw [metaOfItem_mtime, hitfi])]
  · -- the file was skipped in the first pass
    have hnr : needsReindex cfg env (remOf files store).1 f = false := by
      have hmem : f ∉ ((allFilesOf files).filter
          (fun g => rebuild || needsReindex cfg env (remOf files store).1 g)) := by
        intro hc
        apply hsel
        unfold selOf
        rw [selectPass_eq_filter]
        exact hc
      rw [List.mem_filter] at hmem
      push_neg at hmem
      have hb := hmem hf
      cases hx : needsReindex cfg env (remOf files store).1 f
      · rfl
      · exact absurd (by simp [hx]) hb
    have hfp : f.path ∉ (selOf cfg env files store rebuild).1.map FileInfo.path := by
      intro hmem
      obtain ⟨g, hg, hgp⟩ := List.mem_map.mp hmem
      have hgf : g = f := hinj (htoIdx_sub g hg) hf hgp
      exact hsel (hgf ▸ hg)
    have hgetC : ∀ c : Option Nat,
        storeGet (cleanStoreOf cfg (remOf files store).1
          (selOf cfg env files store rebuild).1) ⟨f.path, c⟩
          = storeGet (remOf files store).1 ⟨f.path, c⟩ := by
      intro c
      unfold cleanStoreOf
      by_cases hch : cfg.chunkingEnabled = true
      · rw [if_pos hch]
        apply storeGet_filter_keep
        intro e _ heq
        simp [heq, hfp]
      · rw [if_neg hch]
    have hgetS : ∀ c : Option Nat,
        storeGet
          (storeFoldOf env
            (cleanStoreOf cfg (remOf files store).1 (selOf cfg env files store rebuild).1)
            ((selOf cfg env files store rebuild).1.flatMap (itemsFor cfg)))
          ⟨f.path, c⟩
          = storeGet (cleanStoreOf cfg (remOf files store).1
              (selOf cfg env files store rebuild).1) ⟨f.path, c⟩ := by
      intro c
      apply storeFoldOf_get_notmem
      intro it hit hid
      apply hfp
      obtain ⟨g, hg, hgp, -⟩ := hitems_path it hit
      refine List.mem_map.mpr ⟨g, hg, ?_⟩
      rw [← hgp, hid]
    have hcongr := needsReindex_congr cfg env _ (remOf files store).1 f
      (by rw [hgetS none, hgetC none])
      (by rw [show makeChunkId f.path 0 = (⟨f.path, some 0⟩ : ChunkId) from rfl,
        hgetS (some 0), hgetC (some 0)])
    rw [hcongr, hnr]

/-- C3 counterexample: with chunking enabled, a file with empty content
yields zero chunks, so no store entry is ever written for it and every pass
re-selects it.  The second of two identical passes reports
`files_indexed = 1` (not 0) and saves all artifacts again. -/
theorem c3_counterexample :
    (indexPass fxCfgChunk fxEnv [fxFileEmpty]
        (indexPass fxCfgChunk fxEnv [fxFileEmpty] fxState false).state
        false).summary.filesIndexed = 1
    ∧ (indexPass fxCfgChunk fxEnv [fxFileEmpty]
        (indexPass fxCfgChunk fxEnv [fxFileEmpty] fxState false).state
        false).storeSaved = true := by
  with_unfolding_all decide

/-- C3 (amended): running `index()` twice in a row with no intervening
filesystem changes — provided that, when chunking is enabled, every scanned
file has non-empty content (so it yields at least one chunk) — gives a
second run with `files_indexed = 0` and `files_removed = 0` that performs no
save of store, graph, or BM25 index, leaving the on-disk artifacts exactly
those of the first run. -/
theorem c3_second_pass_noop (cfg : IndexerConfig) (env : Env) (files : List FileInfo)
    (st : IndexerState) (rebuild : Bool)
    (hne : cfg.chunkingEnabled = true → ∀ f ∈ files, f.content ≠ "") :
    (indexPass cfg env files (indexPass cfg env files st rebuild).state
        false).summary.filesIndexed = 0
    ∧ (indexPass cfg env files (indexPass cfg env files st rebuild).state
        false).summary.filesRemoved = 0
    ∧ (indexPass cfg env files (indexPass cfg env files st rebuild).state
        false).storeSaved = false
    ∧ (indexPass cfg env files (indexPass cfg env files st rebuild).state
        false).graphSaved = false
    ∧ (indexPass cfg env files (indexPass cfg env files st rebuild).state
        false).bm25Saved = false
    ∧ (indexPass cfg env files (indexPass cfg env files st rebuild).state
        false).state.disk = (indexPass cfg env files st rebuild).state.disk := by
  have hst1 := indexPass_store_eq cfg env files st rebuild
  have hpaths : ∀ e ∈ (indexPass cfg env files st rebuild).state.store,
      e.1.path ∈ currentOf files := by
    rw [hst1]
    intro e he
    rcases mem_storeFoldOf env _ _ e he with h | ⟨it, hit, heq⟩
    · have hR : e ∈ (remOf files st.store).1 := by
        revert h
        unfold cleanStoreOf
        by_cases hch : cfg.chunkingEnabled = true
        · rw [if_pos hch]
          intro h
          exact (List.mem_filter.mp h).1
        · rw [if_neg hch]
          exact id
      rw [show (remOf files st.store).1
          = st.store.filter (fun e => decide (e.1.path ∈ currentOf files)) from
        removePass_store st.store (currentOf files)] at hR
      have := (List.mem_filter.mp hR).2
      simpa using this
    · obtain ⟨g, hg, hitg⟩ := List.mem_flatMap.mp hit
      obtain ⟨hp, -⟩ := itemsFor_path cfg g it hitg
      rw [heq, hp]
      have hgall : g ∈ allFilesOf files := by
        revert hg
        unfold selOf
        rw [selectPass_eq_filter]
        intro hg
        exact (List.mem_filter.mp hg).1
      exact List.mem_map.mpr ⟨g, hgall, rfl⟩
  have hrem2 : removePass (indexPass cfg env files st rebuild).state.store (currentOf files)
      = ((indexPass cfg env files st rebuild).state.store, 0) :=
    removePass_nochange _ _ hpaths
  have hall : ∀ f ∈ allFilesOf files,
      needsReindex cfg env (indexPass cfg env files st rebuild).state.store f = false := by
    rw [hst1]
    exact run1_needsReindex_false cfg env files st.store rebuild hne
  have hsel2 : (selOf cfg env files (indexPass cfg env files st rebuild).state.store
      false).1 = [] := by
    unfold selOf remOf
    rw [hrem2]
    rw [selectPass_eq_filter]
    rw [List.filter_eq_nil_iff]
    intro f hf
    simp only [Bool.false_or]
    rw [hall f hf]
    simp
  have ha : (indexPass cfg env files (indexPass cfg env files st rebuild).state
      false).summary.filesIndexed = 0 := by
    rw [indexPass_summary]
    show (selOf cfg env files (indexPass cfg env files st rebuild).state.store false).1.length = 0
    rw [hsel2]
    rfl
  have hb : (indexPass cfg env files (indexPass cfg env files st rebuild).state
      false).summary.filesRemoved = 0 := by
    rw [indexPass_summary]
    show (remOf files (indexPass cfg env files st rebuild).state.store).2 = 0
    unfold remOf
    rw [hrem2]
  have hflag : (indexPass cfg env files (indexPass cfg env files st rebuild).state
      false).graphRebuilt = false := by
    rw [indexPass_graphRebuilt, ha, hb]
    rfl
  refine ⟨ha, hb, ?_, ?_, ?_, ?_⟩
  · rw [indexPass_storeSaved, hflag]
  · rw [indexPass_graphSaved, hflag]
  · rw [indexPass_bm25Saved, hflag, Bool.false_and]
  · exact indexPass_disk_of_skipped cfg env files _ false hflag

/-- Witness for C3 (amended) at a one-file chunked corpus with non-empty
content: the second pass indexes and removes nothing and leaves the disk of
the first pass unchanged. -/
theorem c3_second_pass_noop_witness :
    (indexPass fxCfgChunk fxEnv [fxFileA]
        (indexPass fxCfgChunk fxEnv [fxFileA] fxState false).state
        false).summary.filesIndexed = 0
    ∧ (indexPass fxCfgChunk fxEnv [fxFileA]
        (indexPass fxCfgChunk fxEnv [fxFileA] fxState false).state
        false).state.disk = (indexPass fxCfgChunk fxEnv [fxFileA] fxState false).state.disk := by
  have h := c3_second_pass_noop fxCfgChunk fxEnv [fxFileA] fxState false
    (by
      intro _ f hf
      rw [List.mem_singleton] at hf
      rw [hf]
      with_unfolding_all decide)
  exact ⟨h.1, h.2.2.2.2.2⟩

end Gundog
